import Mathlib

/-!
Shallow embedding of the word-search core of the wordfeud-helper-danish
repository, together with theorems settling the frozen claims about it.

Strings are modelled as `List Char` (JavaScript strings iterated by
character).  JavaScript `Map` objects are modelled as association lists
(`LMap`) in insertion order, with `Map.get`/`Map.set` translated by
`mget`/`mset`; a genuine JS `Map` never holds two entries with the same
key, which is expressed where needed by `List.Nodup` of the key list.
JS numbers are modelled as `Nat`/`Int` where the code only ever holds
integers, and as `ℚ` in the sort comparators where a division occurs.
`Array.prototype.sort` (stable, and sorted for a consistent comparator)
is modelled by the stable `List.insertionSort`.
-/

/-- JS whitespace as used by this app: the characters `\s` can match in the
inputs the app handles. -/
def isWS (c : Char) : Bool := c == ' ' || c == '\t' || c == '\n' || c == '\r'

/-- `String.prototype.trim`: drop whitespace from both ends. -/
def jsTrim (l : List Char) : List Char :=
  ((l.dropWhile fun c => isWS c).reverse.dropWhile fun c => isWS c).reverse

def lowerChars : List Char := "abcdefghijklmnopqrstuvwxyzæøå".toList

def upperChars : List Char := "ABCDEFGHIJKLMNOPQRSTUVWXYZÆØÅ".toList

/-- `String.prototype.toUpperCase`, restricted to the character set the app
handles (ASCII letters plus æ/ø/å); all other characters map to themselves. -/
def danishToUpper (c : Char) : Char :=
  match (lowerChars.zip upperChars).find? (fun p => p.1 == c) with
  | some p => p.2
  | none => c

def jsToUpper (l : List Char) : List Char := l.map danishToUpper

/-- `replace(/\s+/g, ' ')`: each maximal run of whitespace becomes one space.
The boolean argument of the worker records whether the previous character was
part of a whitespace run already replaced. -/
def collapseAux : Bool → List Char → List Char
  | _, [] => []
  | prevWS, c :: rest =>
    if isWS c then
      if prevWS then collapseAux true rest
      else ' ' :: collapseAux true rest
    else c :: collapseAux false rest

def collapseSpaces (l : List Char) : List Char := collapseAux false l

/-- utils.js `normalizeString`: guard for falsy input, then
`str.trim().toUpperCase().replace(/\s+/g, ' ')`. -/
def normalizeString (s : List Char) : List Char :=
  if s = [] then [] else collapseSpaces (jsToUpper (jsTrim s))

/-- A JS `Map` from characters to numbers, in insertion order. -/
abbrev LMap := List (Char × Nat)

/-- `map.get(c) || 0` (also used for `map.get(c) ?? 0` patterns). -/
def mget (m : LMap) (c : Char) : Nat :=
  match m.find? (fun p => p.1 == c) with
  | some p => p.2
  | none => 0

def mhas (m : LMap) (c : Char) : Bool := m.any fun p => p.1 == c

/-- `map.set(c, v)`: update the existing entry in place, else append. -/
def mset (m : LMap) (c : Char) (v : Nat) : LMap :=
  if mhas m c then m.map (fun p => if p.1 == c then (p.1, v) else p)
  else m ++ [(c, v)]

def mkeys (m : LMap) : List Char := m.map Prod.fst

/-- The per-letter count map of a word, as built by the `for (const letter of
word) wordLetters.set(letter, (wordLetters.get(letter) || 0) + 1)` loops. -/
def countLetters (w : List Char) : LMap :=
  w.foldl (fun m c => mset m c (mget m c + 1)) []

def WILDCARD_CHARS : List Char := ['?', '_', '*', ' ']

def DANISH_ALPHABET : List Char := "ABCDEFGHIJKLMNOPQRSTUVWXYZÆØÅ".toList

structure ParsedLetters where
  letterCounts : LMap
  wildcards : Nat
deriving DecidableEq, Repr

namespace Utils

/-- utils.js `parseLetters`. -/
def parseLetters (lettersString : List Char) : ParsedLetters :=
  let normalized := normalizeString lettersString
  let r := normalized.foldl
    (fun (acc : LMap × Nat) char =>
      if WILDCARD_CHARS.contains char then (acc.1, acc.2 + 1)
      else if char ≠ ' ' then (mset acc.1 char (mget acc.1 char + 1), acc.2)
      else acc)
    ([], 0)
  ⟨r.1, r.2⟩

/-- utils.js `buildExtraLettersFromPattern`. -/
def buildExtraLettersFromPattern (pattern : Option (List Char)) : LMap :=
  match pattern with
  | none => []
  | some p =>
    if p = [] then []
    else
      (normalizeString p).foldl
        (fun m ch => if DANISH_ALPHABET.contains ch then mset m ch (mget m ch + 1) else m)
        []

end Utils

structure FormResult where
  canForm : Bool
  wildcardsUsed : Nat
  usedUserLetters : Bool
deriving DecidableEq, Repr

/-- The letter-accounting loop shared verbatim by the four formability
functions: accumulate the wildcard shortfall and whether some rack letter was
used.  `skipZero` is the `if (count === 0) continue` line present only in the
`canFormWordWithExtras` copies. -/
def formLoop (availableLetters : LMap) (skipZero : Bool) (wordLetters : LMap) : Nat × Bool :=
  wordLetters.foldl
    (fun acc p =>
      if skipZero && p.2 == 0 then acc
      else
        let available := mget availableLetters p.1
        ((if available < p.2 then acc.1 + (p.2 - available) else acc.1),
         (acc.2 || decide (0 < available))))
    (0, false)

/-- The board-letter subtraction loop of the `canFormWordWithExtras` copies:
`for (const [letter, extraCount] of extraLetters) { const current =
wordLetters.get(letter); if (!current) continue; ... }`. -/
def subtractExtras (wordLetters : LMap) (extraLetters : LMap) : LMap :=
  extraLetters.foldl
    (fun m p => if mget m p.1 = 0 then m else mset m p.1 (mget m p.1 - p.2))
    wordLetters

namespace Utils

/-- utils.js `canFormWord` (main-thread copy; note the
"Jokers should also count as my letters" rule). -/
def canFormWord (word : List Char) (availableLetters : LMap) (availableWildcards : Nat) :
    FormResult :=
  let wordLetters := countLetters word
  let r := formLoop availableLetters false wordLetters
  let wildcardsNeeded := r.1
  let usedUserLetters := r.2 || decide (0 < wildcardsNeeded)
  let canForm := decide (wildcardsNeeded ≤ availableWildcards)
  ⟨canForm, if canForm then wildcardsNeeded else 0, usedUserLetters⟩

/-- utils.js `canFormWordWithExtras` (main-thread copy, with the joker rule). -/
def canFormWordWithExtras (word : List Char) (availableLetters : LMap)
    (availableWildcards : Nat) (extraLetters : LMap) : FormResult :=
  let wordLetters := subtractExtras (countLetters word) extraLetters
  let r := formLoop availableLetters true wordLetters
  let wildcardsNeeded := r.1
  let usedUserLetters := r.2 || decide (0 < wildcardsNeeded)
  let canForm := decide (wildcardsNeeded ≤ availableWildcards)
  ⟨canForm, if canForm then wildcardsNeeded else 0, usedUserLetters⟩

/-- utils.js `compareDanish` character loop: first index where the alphabet
positions differ decides, otherwise the length difference. -/
def danishIndexOf (c : Char) : Int :=
  match DANISH_ALPHABET.findIdx? (fun d => d == c) with
  | some i => (i : Int)
  | none => -1

def cdLoop : List Char → List Char → Int
  | [], bs => -(bs.length : Int)
  | a :: as, [] => ((a :: as).length : Int)
  | a :: as, b :: bs =>
    if danishIndexOf a ≠ danishIndexOf b then danishIndexOf a - danishIndexOf b
    else cdLoop as bs

/-- utils.js `compareDanish`. -/
def compareDanish (a b : List Char) : Int := cdLoop (jsToUpper a) (jsToUpper b)

end Utils

namespace Scoring

/-- scoring.js `LETTER_VALUES` with the `|| 0` default for absent symbols. -/
def LETTER_VALUES (c : Char) : Nat :=
  if c = 'A' ∨ c = 'E' ∨ c = 'N' ∨ c = 'R' then 1
  else if c = 'D' ∨ c = 'L' ∨ c = 'O' ∨ c = 'S' ∨ c = 'T' then 2
  else if c = 'B' ∨ c = 'F' ∨ c = 'G' ∨ c = 'I' ∨ c = 'K' ∨ c = 'U' then 3
  else if c = 'H' ∨ c = 'J' ∨ c = 'M' ∨ c = 'P' ∨ c = 'V' ∨ c = 'Y' ∨ c = 'Æ'
      ∨ c = 'Ø' ∨ c = 'Å' then 4
  else if c = 'C' ∨ c = 'X' then 8
  else if c = 'Z' then 9
  else 0

/-- scoring.js `getLetterValue`: uppercase, then table lookup. -/
def getLetterValue (c : Char) : Nat := LETTER_VALUES (danishToUpper c)

/-- `letterPoints.sort((a, b) => b.points - a.points)`, keeping only the point
values (the letters attached to them are never read afterwards). -/
def sortPointsDesc (l : List Nat) : List Nat :=
  List.insertionSort (fun a b => b ≤ a) l

/-- scoring.js `scoreWord`: guard on falsy word / negative jokers, sum the
letter values, and when `0 < jokersUsed <= word.length` subtract the points of
the `jokersUsed` most expensive letters one by one. -/
def scoreWord (word : List Char) (jokersUsed : Int) : Int :=
  if word = [] ∨ jokersUsed < 0 then 0
  else
    let letterPoints := word.map getLetterValue
    let totalPoints : Int := (letterPoints.map fun n => Int.ofNat n).sum
    if 0 < jokersUsed ∧ jokersUsed ≤ (word.length : Int) then
      ((sortPointsDesc letterPoints).take jokersUsed.toNat).foldl
        (fun t p => t - Int.ofNat p) totalPoints
    else totalPoints

end Scoring

/-- Compiled board-pattern tokens: literal character, `.` (exactly one
arbitrary character), `*` (zero or more arbitrary characters). -/
inductive Tok where
  | lit (c : Char)
  | anyOne
  | anyMany
deriving DecidableEq, Repr

/-- The regex source built by `matchesBoardPattern`, as tokens: `.` and `*`
translate to wildcards, spaces are skipped, anything else is a literal. -/
def patTokens : List Char → List Tok
  | [] => []
  | c :: rest =>
    if c = '.' then Tok.anyOne :: patTokens rest
    else if c = '*' then Tok.anyMany :: patTokens rest
    else if c = ' ' then patTokens rest
    else Tok.lit c :: patTokens rest

/-- The `wildcardCount` accumulated while building the regex source: one per
`.` or `*` character. -/
def patWildcardCount (l : List Char) : Nat :=
  (l.filter fun c => c == '.' || c == '*').length

/-- Matching of the compiled anchored regex `^...$` against the whole word
(`.` modelled as matching any single character). -/
def globMatch : List Tok → List Char → Bool
  | [], w => w.isEmpty
  | Tok.lit _ :: _, [] => false
  | Tok.lit c :: ts, x :: xs => c == x && globMatch ts xs
  | Tok.anyOne :: _, [] => false
  | Tok.anyOne :: ts, _ :: xs => globMatch ts xs
  | Tok.anyMany :: ts, w =>
    globMatch ts w ||
      (match w with
       | [] => false
       | _ :: xs => globMatch (Tok.anyMany :: ts) xs)
termination_by ts w => (ts.length, w.length)
decreasing_by
  all_goals simp +arith [Prod.lex_def]

/-- searchEngine.js `matchesBoardPattern` (the searchWorker.js copy is
character-for-character identical): trim and uppercase, accept the empty
pattern, reject patterns longer than 50 characters or with more than 15
wildcard symbols, otherwise match the compiled anchored pattern.  A rejected
pattern simply matches nothing; no error escapes (the `try/catch` around the
regex is modelled by `globMatch` being total). -/
def matchesBoardPattern (wordUpper : List Char) (pattern : List Char) : Bool :=
  let trimmed := jsToUpper (jsTrim pattern)
  if trimmed = [] then true
  else if 50 < trimmed.length then false
  else if 15 < patWildcardCount trimmed then false
  else globMatch (patTokens trimmed) wordUpper

structure Filters where
  boardPattern : Option (List Char) := none
  lengthMode : Option (List Char) := none
  exactLength : Option Int := none
  minLength : Option Int := none
  maxLength : Option Int := none
  sortBy : Option (List Char) := none
deriving DecidableEq, Repr

/-- `passesLengthFilter` (identical in searchEngine.js and searchWorker.js). -/
def passesLengthFilter (length : Nat) (filters : Filters) : Bool :=
  let mode := match filters.lengthMode with
    | none => "all".toList
    | some m => if m = [] then "all".toList else m
  if mode = "all".toList then decide (2 ≤ length ∧ length ≤ 15)
  else if mode = "exact".toList then
    match filters.exactLength with
    | none => true
    | some e => decide ((length : Int) = e)
  else if mode = "range".toList then
    let min := filters.minLength.getD 2
    let max := filters.maxLength.getD 15
    decide (min ≤ (length : Int) ∧ (length : Int) ≤ max)
  else true

structure Candidate where
  word : List Char
  score : Int
  length : Nat
  usedJokers : Nat
deriving DecidableEq, Repr

/-- JS `Array.prototype.sort` with a numeric comparator: stable, and sorted
with respect to `cmp · · ≤ 0` whenever the comparator is consistent. -/
def jsSort (cmp : α → α → ℚ) (l : List α) : List α :=
  List.insertionSort (fun a b => cmp a b ≤ 0) l

/-- The `sortBy === 'score'` comparator of `sortResults`. -/
def scoreCompare (a b : Candidate) : ℚ :=
  if b.score ≠ a.score then ((b.score : ℚ) - (a.score : ℚ))
  else if a.usedJokers ≠ b.usedJokers then ((a.usedJokers : ℚ) - (b.usedJokers : ℚ))
  else ((b.score : ℚ) / (b.length : ℚ)) - ((a.score : ℚ) / (a.length : ℚ))

/-- The `sortBy === 'length'` comparator of `sortResults`. -/
def lengthCompare (a b : Candidate) : ℚ :=
  if b.length ≠ a.length then ((b.length : ℚ) - (a.length : ℚ))
  else ((b.score : ℚ) - (a.score : ℚ))

/-- The `default` comparator of `sortResults`: score descending only. -/
def defaultCompare (a b : Candidate) : ℚ := (b.score : ℚ) - (a.score : ℚ)

/-- The `alpha` comparator: `compareDanish` on the words. -/
def alphaCompare (a b : Candidate) : ℚ := ((Utils.compareDanish a.word b.word : Int) : ℚ)

/-- `sortResults` (identical in searchEngine.js and searchWorker.js). -/
def sortResults (results : List Candidate) (sortBy : List Char) : List Candidate :=
  if sortBy = "score".toList then jsSort scoreCompare results
  else if sortBy = "length".toList then jsSort lengthCompare results
  else if sortBy = "alpha".toList then jsSort alphaCompare results
  else jsSort defaultCompare results

/-- `filters.sortBy || 'score'` at the two call sites of `sortResults`. -/
def sortKeyOf (sortBy : Option (List Char)) : List Char :=
  match sortBy with
  | none => "score".toList
  | some s => if s = [] then "score".toList else s

namespace SearchEngine

/-- searchEngine.js `passesFilters`: board pattern (normalized via
`normalizeString`) then length filter. -/
def passesFilters (word : List Char) (filters : Filters) : Bool :=
  let wordUpper := jsToUpper word
  let patOK :=
    match filters.boardPattern with
    | none => true
    | some bp =>
      if bp = [] then true
      else
        let pattern := normalizeString bp
        if pattern = [] then true
        else matchesBoardPattern wordUpper pattern
  patOK && passesLengthFilter word.length filters

/-- One iteration of the `for (const word of allWords)` loop of `searchWords`:
the accumulator carries the `results` array and the `seenWords` set. -/
def searchStep (letterCounts : LMap) (wildcards : Nat) (extraLetters : LMap)
    (filters : Filters) (acc : List Candidate × List (List Char)) (word : List Char) :
    List Candidate × List (List Char) :=
  let normalizedWord := jsTrim (jsToUpper word)
  if acc.2.contains normalizedWord then acc
  else
    let fr :=
      if extraLetters ≠ [] then
        Utils.canFormWordWithExtras word letterCounts wildcards extraLetters
      else Utils.canFormWord word letterCounts wildcards
    if fr.canForm = false then acc
    else if fr.usedUserLetters = false then acc
    else if passesFilters word filters = false then acc
    else
      (acc.1 ++ [⟨word, Scoring.scoreWord word (fr.wildcardsUsed : Int),
                 word.length, fr.wildcardsUsed⟩],
       acc.2 ++ [normalizedWord])

/-- searchEngine.js `searchWords`, with the loaded word list passed explicitly
(the repository reads it from module state filled by the external wordlist
loader) and the diagnostic `elapsedMs`/`totalFound` fields dropped. -/
def searchWords (lettersString : List Char) (filters : Filters)
    (allWords : List (List Char)) : List Candidate :=
  let pl := Utils.parseLetters lettersString
  let extraLetters := Utils.buildExtraLettersFromPattern filters.boardPattern
  let acc := allWords.foldl (searchStep pl.letterCounts pl.wildcards extraLetters filters)
    ([], [])
  sortResults acc.1 (sortKeyOf filters.sortBy)

end SearchEngine

namespace Worker

/-- searchWorker.js `parseLetters`: the same scan over
`lettersString.trim().toUpperCase().replace(/\s+/g, ' ')`. -/
def parseLetters (lettersString : List Char) : ParsedLetters :=
  let normalized := collapseSpaces (jsToUpper (jsTrim lettersString))
  let r := normalized.foldl
    (fun (acc : LMap × Nat) char =>
      if WILDCARD_CHARS.contains char then (acc.1, acc.2 + 1)
      else if char ≠ ' ' then (mset acc.1 char (mget acc.1 char + 1), acc.2)
      else acc)
    ([], 0)
  ⟨r.1, r.2⟩

/-- searchWorker.js `buildExtraLettersFromPattern`: trim + uppercase, without
the whitespace collapsing of the main-thread copy. -/
def buildExtraLettersFromPattern (pattern : Option (List Char)) : LMap :=
  match pattern with
  | none => []
  | some p =>
    if p = [] then []
    else
      (jsToUpper (jsTrim p)).foldl
        (fun m ch => if DANISH_ALPHABET.contains ch then mset m ch (mget m ch + 1) else m)
        []

/-- searchWorker.js `canFormWord` as called by `handleSearch` (with
`extraLetters = null`); it lacks the main-thread joker rule. -/
def canFormWord (word : List Char) (availableLetters : LMap) (availableWildcards : Nat) :
    FormResult :=
  let wordLetters := countLetters word
  let r := formLoop availableLetters false wordLetters
  let wildcardsNeeded := r.1
  let canForm := decide (wildcardsNeeded ≤ availableWildcards)
  ⟨canForm, if canForm then wildcardsNeeded else 0, r.2⟩

/-- searchWorker.js `canFormWordWithExtras`; it lacks the main-thread joker
rule. -/
def canFormWordWithExtras (word : List Char) (availableLetters : LMap)
    (availableWildcards : Nat) (extraLetters : LMap) : FormResult :=
  let wordLetters := subtractExtras (countLetters word) extraLetters
  let r := formLoop availableLetters true wordLetters
  let wildcardsNeeded := r.1
  let canForm := decide (wildcardsNeeded ≤ availableWildcards)
  ⟨canForm, if canForm then wildcardsNeeded else 0, r.2⟩

/-- searchWorker.js `scoreWord`: as scoring.js `scoreWord` but looking letters
up in `LETTER_VALUES` directly, without uppercasing first. -/
def scoreWord (word : List Char) (jokersUsed : Int) : Int :=
  if word = [] ∨ jokersUsed < 0 then 0
  else
    let letterPoints := word.map Scoring.LETTER_VALUES
    let totalPoints : Int := (letterPoints.map fun n => Int.ofNat n).sum
    if 0 < jokersUsed ∧ jokersUsed ≤ (word.length : Int) then
      ((Scoring.sortPointsDesc letterPoints).take jokersUsed.toNat).foldl
        (fun t p => t - Int.ofNat p) totalPoints
    else totalPoints

/-- searchWorker.js `passesFilters`: the pattern argument is
`filters.boardPattern.trim().toUpperCase()`, with no space collapsing. -/
def passesFilters (word : List Char) (filters : Filters) : Bool :=
  let wordUpper := jsToUpper word
  let patOK :=
    match filters.boardPattern with
    | none => true
    | some bp =>
      if bp = [] then true
      else
        let pattern := jsToUpper (jsTrim bp)
        if pattern = [] then true
        else matchesBoardPattern wordUpper pattern
  patOK && passesLengthFilter word.length filters

/-- One iteration of the `for (const word of wordlist)` loop of
`handleSearch`. -/
def searchStep (letterCounts : LMap) (wildcards : Nat) (extraLetters : LMap)
    (filters : Filters) (acc : List Candidate × List (List Char)) (word : List Char) :
    List Candidate × List (List Char) :=
  let normalizedWord := jsTrim (jsToUpper word)
  if acc.2.contains normalizedWord then acc
  else
    let fr :=
      if extraLetters ≠ [] then
        canFormWordWithExtras word letterCounts wildcards extraLetters
      else canFormWord word letterCounts wildcards
    if fr.canForm = false then acc
    else if fr.usedUserLetters = false then acc
    else if passesFilters word filters = false then acc
    else
      (acc.1 ++ [⟨word, scoreWord word (fr.wildcardsUsed : Int),
                 word.length, fr.wildcardsUsed⟩],
       acc.2 ++ [normalizedWord])

/-- searchWorker.js `handleSearch`, with the worker's loaded word list passed
explicitly and the posted `elapsedMs`/`totalFound` fields dropped.  `none`
models the silent return on the length-validation failure (no message is
posted at all). -/
def handleSearch (lettersString : List Char) (filters : Filters)
    (wordlist : List (List Char)) : Option (List Candidate) :=
  if 15 < lettersString.length then none
  else
    let pl := parseLetters lettersString
    let extraLetters := buildExtraLettersFromPattern filters.boardPattern
    let acc := wordlist.foldl (searchStep pl.letterCounts pl.wildcards extraLetters filters)
      ([], [])
    some (sortResults acc.1 (sortKeyOf filters.sortBy))

end Worker


/-! ### Association-list map lemmas -/

theorem mem_mkeys {m : LMap} {c : Char} : c ∈ mkeys m ↔ ∃ p ∈ m, p.1 = c := by
  simp [mkeys, List.mem_map, eq_comm]

theorem mhas_iff {m : LMap} {c : Char} : mhas m c = true ↔ c ∈ mkeys m := by
  simp [mhas, List.any_eq_true, mem_mkeys]

theorem mget_eq_zero_of_not_mem {m : LMap} {c : Char} (h : c ∉ mkeys m) : mget m c = 0 := by
  have hf : m.find? (fun p => p.1 == c) = none := by
    rw [List.find?_eq_none]
    intro p hp
    simp only [beq_iff_eq]
    exact fun hc => h (mem_mkeys.mpr ⟨p, hp, hc⟩)
  simp [mget, hf]

theorem mget_map_set_self {m : LMap} {c : Char} {v : Nat} (hc : c ∈ mkeys m) :
    mget (m.map fun p => if p.1 == c then (p.1, v) else p) c = v := by
  induction m with
  | nil => simp [mkeys] at hc
  | cons p m ih =>
    by_cases hpc : p.1 = c
    · simp [mget, hpc]
    · have hc' : c ∈ mkeys m := by
        rcases mem_mkeys.mp hc with ⟨q, hq, hqc⟩
        rcases List.mem_cons.mp hq with h | h
        · exact absurd (h ▸ hqc) hpc
        · exact mem_mkeys.mpr ⟨q, h, hqc⟩
      have := ih hc'
      simpa [mget, hpc] using this

theorem mget_map_set_other {m : LMap} {c : Char} {v : Nat} {d : Char} (hdc : d ≠ c) :
    mget (m.map fun p => if p.1 == c then (p.1, v) else p) d = mget m d := by
  induction m with
  | nil => simp
  | cons p m ih =>
    by_cases hpd : p.1 = d
    · have hpc : ¬ p.1 = c := fun h => hdc (hpd.symm.trans h)
      have hmap : (if (p.1 == c) = true then (p.1, v) else p) = p := by simp [hpc]
      simp only [List.map_cons, hmap]
      unfold mget
      rw [List.find?_cons_of_pos _ (by simpa using hpd),
          List.find?_cons_of_pos _ (by simpa using hpd)]
    · by_cases hpc : p.1 = c
      · have : ¬ (p.1 = d) := hpd
        simpa [mget, hpc, this, hdc.symm] using ih
      · simpa [mget, hpc, hpd] using ih

theorem mget_mset (m : LMap) (c : Char) (v : Nat) (d : Char) :
    mget (mset m c v) d = if d = c then v else mget m d := by
  unfold mset
  by_cases hm : mhas m c = true
  · rw [if_pos hm]
    by_cases hdc : d = c
    · subst hdc
      rw [if_pos rfl]
      exact mget_map_set_self (mhas_iff.mp hm)
    · rw [if_neg hdc]
      exact mget_map_set_other hdc
  · rw [if_neg hm]
    have hnm : c ∉ mkeys m := fun h => hm (mhas_iff.mpr h)
    by_cases hdc : d = c
    · subst hdc
      have hf : m.find? (fun p => p.1 == d) = none := by
        rw [List.find?_eq_none]
        intro p hp
        simp only [beq_iff_eq]
        exact fun hc => hnm (mem_mkeys.mpr ⟨p, hp, hc⟩)
      simp [mget, List.find?_append, hf]
    · rw [if_neg hdc]
      have htail : List.find? (fun p => p.1 == d) [(c, v)] = none := by
        have hcd : (c == d) = false := by simpa using Ne.symm hdc
        simp [List.find?, hcd]
      simp only [mget, List.find?_append, htail, Option.or_none]

theorem mkeys_mset (m : LMap) (c : Char) (v : Nat) :
    mkeys (mset m c v) = if mhas m c then mkeys m else mkeys m ++ [c] := by
  unfold mset
  by_cases hm : mhas m c = true
  · rw [if_pos hm, if_pos hm]
    unfold mkeys
    rw [List.map_map]
    apply List.map_congr_left
    intro p _
    by_cases hpc : p.1 = c <;> simp [hpc]
  · rw [if_neg hm, if_neg hm]
    simp [mkeys]

theorem mem_mkeys_mset {m : LMap} {c : Char} {v : Nat} {d : Char} :
    d ∈ mkeys (mset m c v) ↔ d ∈ mkeys m ∨ d = c := by
  rw [mkeys_mset]
  by_cases hm : mhas m c = true
  · rw [if_pos hm]
    constructor
    · exact Or.inl
    · rintro (h | rfl)
      · exact h
      · exact mhas_iff.mp hm
  · rw [if_neg hm]
    simp

theorem nodup_mkeys_mset {m : LMap} {c : Char} {v : Nat} (h : (mkeys m).Nodup) :
    (mkeys (mset m c v)).Nodup := by
  rw [mkeys_mset]
  by_cases hm : mhas m c = true
  · rwa [if_pos hm]
  · rw [if_neg hm]
    have : c ∉ mkeys m := fun hc => hm (mhas_iff.mpr hc)
    simp [List.nodup_append, h, this]

/-- With nodup keys, each stored entry's value is what `mget` returns at its
key. -/
theorem mget_of_mem_nodup {m : LMap} (h : (mkeys m).Nodup) {p : Char × Nat}
    (hp : p ∈ m) : mget m p.1 = p.2 := by
  induction m with
  | nil => cases hp
  | cons q m ih =>
    rcases List.mem_cons.mp hp with rfl | hp'
    · simp [mget]
    · have hq : q.1 ≠ p.1 := by
        intro he
        have : q.1 ∈ mkeys m := mem_mkeys.mpr ⟨p, hp', he.symm⟩
        exact (List.nodup_cons.mp h).1 this
      have h' : (mkeys m).Nodup := (List.nodup_cons.mp h).2
      simpa [mget, hq] using ih h' hp'

theorem mget_cons_self {p : Char × Nat} {m : LMap} {c : Char} (h : p.1 = c) :
    mget (p :: m) c = p.2 := by
  unfold mget
  rw [List.find?_cons_of_pos _ (by simpa using h)]

theorem mget_cons_ne {p : Char × Nat} {m : LMap} {c : Char} (h : ¬ p.1 = c) :
    mget (p :: m) c = mget m c := by
  unfold mget
  rw [List.find?_cons_of_neg _ (by simpa using h)]

theorem map_set_id {m : LMap} {c : Char} {v : Nat} (h : c ∉ mkeys m) :
    (m.map fun p => if p.1 == c then (p.1, v) else p) = m := by
  induction m with
  | nil => simp
  | cons p m ih =>
    have hpc : ¬ p.1 = c := by
      intro hc
      exact h (mem_mkeys.mpr ⟨p, List.mem_cons_self _ _, hc⟩)
    have h' : c ∉ mkeys m := by
      intro hc
      rcases mem_mkeys.mp hc with ⟨q, hq, hqc⟩
      exact h (mem_mkeys.mpr ⟨q, List.mem_cons_of_mem _ hq, hqc⟩)
    simp only [List.map_cons]
    rw [if_neg (by simpa using hpc), ih h']

theorem mget_ne_zero_mem {m : LMap} {c : Char} (h : mget m c ≠ 0) : c ∈ mkeys m := by
  by_contra hc
  exact h (mget_eq_zero_of_not_mem hc)

/-- Sum of the stored values of a map. -/
def vsum (m : LMap) : Nat := (m.map fun p => p.2).sum

theorem vsum_map_set {m : LMap} {c : Char} {v : Nat} (h : (mkeys m).Nodup)
    (hc : c ∈ mkeys m) :
    vsum (m.map fun p => if p.1 == c then (p.1, v) else p) + mget m c = vsum m + v := by
  induction m with
  | nil => simp [mkeys] at hc
  | cons p m ih =>
    by_cases hpc : p.1 = c
    · have hcm : c ∉ mkeys m := hpc ▸ (List.nodup_cons.mp h).1
      have e1 : (if (p.1 == c) = true then (p.1, v) else p) = (p.1, v) := by simp [hpc]
      have e2 : (m.map fun p => if p.1 == c then (p.1, v) else p) = m := map_set_id hcm
      have e3 : mget (p :: m) c = p.2 := mget_cons_self hpc
      simp only [List.map_cons, e1, e2, e3, vsum, List.sum_cons]
      omega
    · have hc' : c ∈ mkeys m := by
        rcases mem_mkeys.mp hc with ⟨q, hq, hqc⟩
        rcases List.mem_cons.mp hq with rfl | hq'
        · exact absurd hqc hpc
        · exact mem_mkeys.mpr ⟨q, hq', hqc⟩
      have e1 : (if (p.1 == c) = true then (p.1, v) else p) = p := by simp [hpc]
      have e3 : mget (p :: m) c = mget m c := mget_cons_ne hpc
      have := ih (List.nodup_cons.mp h).2 hc'
      simp only [List.map_cons, e1, e3, vsum, List.sum_cons] at this ⊢
      omega

theorem vsum_mset {m : LMap} {c : Char} {v : Nat} (h : (mkeys m).Nodup) :
    vsum (mset m c v) + mget m c = vsum m + v := by
  unfold mset
  by_cases hm : mhas m c = true
  · rw [if_pos hm]
    exact vsum_map_set h (mhas_iff.mp hm)
  · rw [if_neg hm]
    have h0 : mget m c = 0 :=
      mget_eq_zero_of_not_mem fun hc => hm (mhas_iff.mpr hc)
    simp [vsum, h0]

/-! ### countLetters lemmas -/

theorem countLoop_mget (w : List Char) (m : LMap) (d : Char) :
    mget (w.foldl (fun m c => mset m c (mget m c + 1)) m) d = mget m d + w.count d := by
  induction w generalizing m with
  | nil => simp
  | cons c w ih =>
    rw [List.foldl_cons, ih, mget_mset, List.count_cons]
    by_cases hdc : d = c
    · subst hdc; simp; omega
    · have hcd : ¬ (c == d) = true := by simpa using Ne.symm hdc
      simp [hdc, hcd]

theorem countLoop_mem (w : List Char) (m : LMap) (d : Char) :
    d ∈ mkeys (w.foldl (fun m c => mset m c (mget m c + 1)) m) ↔ d ∈ mkeys m ∨ d ∈ w := by
  induction w generalizing m with
  | nil => simp
  | cons c w ih =>
    rw [List.foldl_cons, ih, mem_mkeys_mset]
    simp [List.mem_cons]
    tauto

theorem countLoop_nodup (w : List Char) (m : LMap) (h : (mkeys m).Nodup) :
    (mkeys (w.foldl (fun m c => mset m c (mget m c + 1)) m)).Nodup := by
  induction w generalizing m with
  | nil => exact h
  | cons c w ih => exact ih _ (nodup_mkeys_mset h)

theorem countLoop_vsum (w : List Char) (m : LMap) (h : (mkeys m).Nodup) :
    vsum (w.foldl (fun m c => mset m c (mget m c + 1)) m) = vsum m + w.length := by
  induction w generalizing m with
  | nil => simp
  | cons c w ih =>
    rw [List.foldl_cons, ih _ (nodup_mkeys_mset h)]
    have := vsum_mset (m := m) (c := c) (v := mget m c + 1) h
    simp only [List.length_cons]
    omega

theorem countLetters_mget (w : List Char) (d : Char) :
    mget (countLetters w) d = w.count d := by
  simpa [mget] using countLoop_mget w [] d

theorem countLetters_mem (w : List Char) (d : Char) :
    d ∈ mkeys (countLetters w) ↔ d ∈ w := by
  simpa [mkeys] using countLoop_mem w [] d

theorem countLetters_nodup (w : List Char) : (mkeys (countLetters w)).Nodup :=
  countLoop_nodup w [] (by simp [mkeys])

theorem countLetters_vsum (w : List Char) : vsum (countLetters w) = w.length := by
  simpa [vsum] using countLoop_vsum w [] (by simp [mkeys])

/-! ### subtractExtras lemmas -/

theorem mkeys_subtractExtras (m B : LMap) : mkeys (subtractExtras m B) = mkeys m := by
  induction B generalizing m with
  | nil => rfl
  | cons p B ih =>
    unfold subtractExtras at ih ⊢
    rw [List.foldl_cons]
    by_cases h0 : mget m p.1 = 0
    · rw [if_pos h0, ih]
    · rw [if_neg h0, ih, mkeys_mset,
          if_pos (mhas_iff.mpr (mget_ne_zero_mem h0))]

theorem nodup_mkeys_subtractExtras {m : LMap} (B : LMap) (h : (mkeys m).Nodup) :
    (mkeys (subtractExtras m B)).Nodup := by
  rw [mkeys_subtractExtras]; exact h

theorem mget_subtractExtras (m : LMap) (B : LMap) (c : Char) (hB : (mkeys B).Nodup) :
    mget (subtractExtras m B) c = mget m c - mget B c := by
  induction B generalizing m with
  | nil => simp [subtractExtras, mget]
  | cons p B ih =>
    unfold subtractExtras at ih ⊢
    rw [List.foldl_cons]
    have hBnd : (mkeys B).Nodup := (List.nodup_cons.mp hB).2
    by_cases hpc : p.1 = c
    · have hcB : c ∉ mkeys B := hpc ▸ (List.nodup_cons.mp hB).1
      have hBc : mget B c = 0 := mget_eq_zero_of_not_mem hcB
      rw [mget_cons_self hpc]
      by_cases h0 : mget m p.1 = 0
      · rw [if_pos h0, ih _ hBnd, hBc]
        rw [hpc] at h0
        omega
      · rw [if_neg h0, ih _ hBnd, hBc, mget_mset, if_pos hpc.symm, hpc]
        omega
    · rw [mget_cons_ne hpc]
      by_cases h0 : mget m p.1 = 0
      · rw [if_pos h0, ih _ hBnd]
      · rw [if_neg h0, ih _ hBnd, mget_mset, if_neg (fun h => hpc h.symm)]

theorem mget_subtractExtras_le (m B : LMap) (c : Char) :
    mget (subtractExtras m B) c ≤ mget m c := by
  induction B generalizing m with
  | nil => exact Nat.le_refl _
  | cons p B ih =>
    unfold subtractExtras at ih ⊢
    rw [List.foldl_cons]
    by_cases h0 : mget m p.1 = 0
    · rw [if_pos h0]; exact ih m
    · rw [if_neg h0]
      refine (ih _).trans ?_
      rw [mget_mset]
      by_cases hpc : c = p.1
      · rw [if_pos hpc, hpc]; omega
      · rw [if_neg hpc]

theorem vsum_eq_sum_mkeys {m : LMap} (h : (mkeys m).Nodup) :
    vsum m = ((mkeys m).map fun c => mget m c).sum := by
  unfold vsum mkeys
  rw [List.map_map]
  congr 1
  apply List.map_congr_left
  intro p hp
  exact (mget_of_mem_nodup h hp).symm

/-! ### formLoop characterization -/

theorem formLoop_eq (R : LMap) (skip : Bool) (m : LMap) :
    formLoop R skip m =
      ((m.map fun p => p.2 - mget R p.1).sum,
       m.any fun p => !(skip && p.2 == 0) && decide (0 < mget R p.1)) := by
  unfold formLoop
  suffices h : ∀ (acc : Nat × Bool),
      m.foldl (fun acc p =>
        if skip && p.2 == 0 then acc
        else
          ((if mget R p.1 < p.2 then acc.1 + (p.2 - mget R p.1) else acc.1),
           (acc.2 || decide (0 < mget R p.1)))) acc
      = (acc.1 + (m.map fun p => p.2 - mget R p.1).sum,
         acc.2 || m.any fun p => !(skip && p.2 == 0) && decide (0 < mget R p.1)) by
    simpa using h (0, false)
  induction m with
  | nil => intro acc; simp
  | cons p m ih =>
    intro acc
    rw [List.foldl_cons]
    by_cases hz : (skip && p.2 == 0) = true
    · rw [if_pos hz, ih]
      have h2 := hz
      simp only [Bool.and_eq_true, beq_iff_eq] at h2
      simp [h2.1, h2.2]
    · have e1 : (if mget R p.1 < p.2 then acc.1 + (p.2 - mget R p.1) else acc.1)
          = acc.1 + (p.2 - mget R p.1) := by
        by_cases hlt : mget R p.1 < p.2
        · rw [if_pos hlt]
        · rw [if_neg hlt]
          omega
      rw [if_neg hz, e1, ih]
      have hzf : (skip && p.2 == 0) = false := by simpa using hz
      simp only [List.map_cons, List.sum_cons, List.any_cons, hzf, Bool.not_false,
        Bool.true_and, Prod.mk.injEq]
      constructor
      · omega
      · rw [Bool.or_assoc]

/-! ### Formability: per-letter characterization -/

/-- The claim's formula for the number of wildcards a word needs: for each
letter, what remains of its count in `w` after the board letters `B` and the
rack letters `R` are used, floored at zero (ℕ-subtraction), summed over the
distinct letters of `w` (letters not in `w` contribute 0). -/
def wildcardsNeededSpec (w : List Char) (R B : LMap) : Nat :=
  (w.dedup.map fun c => w.count c - mget B c - mget R c).sum

theorem sum_entries_eq_keys {m : LMap} (h : (mkeys m).Nodup) (f : Char → Nat → Nat) :
    (m.map fun p => f p.1 p.2).sum = ((mkeys m).map fun k => f k (mget m k)).sum := by
  unfold mkeys
  rw [List.map_map]
  congr 1
  apply List.map_congr_left
  intro p hp
  simp only [Function.comp_apply, mget_of_mem_nodup h hp]

theorem mkeys_perm_dedup {m : LMap} {w : List Char} (h : (mkeys m).Nodup)
    (hm : ∀ c, c ∈ mkeys m ↔ c ∈ w) : List.Perm (mkeys m) w.dedup :=
  (List.perm_ext_iff_of_nodup h (List.nodup_dedup w)).mpr
    fun c => by rw [hm, List.mem_dedup]

theorem formLoop_needed_extras (w : List Char) (R B : LMap) (hB : (mkeys B).Nodup) :
    (formLoop R true (subtractExtras (countLetters w) B)).1 = wildcardsNeededSpec w R B := by
  rw [formLoop_eq]
  have hnd : (mkeys (subtractExtras (countLetters w) B)).Nodup :=
    nodup_mkeys_subtractExtras B (countLetters_nodup w)
  have hmem : ∀ c, c ∈ mkeys (subtractExtras (countLetters w) B) ↔ c ∈ w := by
    intro c
    rw [mkeys_subtractExtras, countLetters_mem]
  have e1 := sum_entries_eq_keys hnd (fun k v => v - mget R k)
  simp only [e1]
  have e2 : ∀ k, mget (subtractExtras (countLetters w) B) k - mget R k
      = w.count k - mget B k - mget R k := by
    intro k
    rw [mget_subtractExtras _ _ _ hB, countLetters_mget]
  simp only [e2]
  exact ((mkeys_perm_dedup hnd hmem).map _).sum_eq

theorem formLoop_needed_plain (w : List Char) (R : LMap) :
    (formLoop R false (countLetters w)).1 = wildcardsNeededSpec w R [] := by
  rw [formLoop_eq]
  have hnd := countLetters_nodup w
  have e1 := sum_entries_eq_keys hnd (fun k v => v - mget R k)
  simp only [e1]
  have e2 : ∀ k, mget (countLetters w) k - mget R k = w.count k - mget [] k - mget R k := by
    intro k
    rw [countLetters_mget]
    rfl
  simp only [e2]
  exact ((mkeys_perm_dedup hnd (countLetters_mem w)).map _).sum_eq

theorem formLoop_used_extras (w : List Char) (R B : LMap) (hB : (mkeys B).Nodup) :
    (formLoop R true (subtractExtras (countLetters w) B)).2 = true
      ↔ ∃ c, w.count c - mget B c ≠ 0 ∧ 0 < mget R c := by
  rw [formLoop_eq]
  simp only [List.any_eq_true]
  constructor
  · rintro ⟨p, hp, hcond⟩
    simp only [Bool.and_eq_true, Bool.not_eq_true', Bool.and_eq_false_iff,
      decide_eq_true_eq] at hcond
    refine ⟨p.1, ?_, hcond.2⟩
    have hv : mget (subtractExtras (countLetters w) B) p.1 = p.2 :=
      mget_of_mem_nodup (nodup_mkeys_subtractExtras B (countLetters_nodup w))
        (by exact hp)
    rw [mget_subtractExtras _ _ _ hB, countLetters_mget] at hv
    rcases hcond.1 with h | h
    · cases h
    · rw [hv]
      simpa using h
  · rintro ⟨c, hc, hR⟩
    have hcw : c ∈ w := by
      by_contra hcw
      have : w.count c = 0 := List.count_eq_zero.mpr hcw
      omega
    have hck : c ∈ mkeys (subtractExtras (countLetters w) B) := by
      rw [mkeys_subtractExtras, countLetters_mem]
      exact hcw
    rcases mem_mkeys.mp hck with ⟨p, hp, hpc⟩
    refine ⟨p, hp, ?_⟩
    have hv : mget (subtractExtras (countLetters w) B) p.1 = p.2 :=
      mget_of_mem_nodup (nodup_mkeys_subtractExtras B (countLetters_nodup w)) hp
    rw [hpc, mget_subtractExtras _ _ _ hB, countLetters_mget] at hv
    simp only [Bool.and_eq_true, Bool.not_eq_true', Bool.and_eq_false_iff,
      decide_eq_true_eq]
    subst hpc
    exact ⟨Or.inr (by simpa using hv ▸ hc), hR⟩

theorem formLoop_used_plain (w : List Char) (R : LMap) :
    (formLoop R false (countLetters w)).2 = true ↔ ∃ c, w.count c ≠ 0 ∧ 0 < mget R c := by
  rw [formLoop_eq]
  simp only [List.any_eq_true]
  constructor
  · rintro ⟨p, hp, hcond⟩
    simp only [Bool.false_and, Bool.not_false, Bool.true_and, decide_eq_true_eq] at hcond
    refine ⟨p.1, ?_, hcond⟩
    have hmem : p.1 ∈ mkeys (countLetters w) := mem_mkeys.mpr ⟨p, hp, rfl⟩
    rw [countLetters_mem] at hmem
    exact fun h0 => (List.count_eq_zero.mp h0) hmem
  · rintro ⟨c, hc, hR⟩
    have hcw : c ∈ w := by
      by_contra hcw
      exact hc (List.count_eq_zero.mpr hcw)
    have hck : c ∈ mkeys (countLetters w) := (countLetters_mem w c).mpr hcw
    rcases mem_mkeys.mp hck with ⟨p, hp, hpc⟩
    refine ⟨p, hp, ?_⟩
    subst hpc
    simp only [Bool.false_and, Bool.not_false, Bool.true_and, decide_eq_true_eq]
    exact hR

theorem formLoop_needed_le (R : LMap) (skip : Bool) (m : LMap) :
    (formLoop R skip m).1 ≤ vsum m := by
  rw [formLoop_eq]
  unfold vsum
  apply List.sum_le_sum
  intro p _
  omega

theorem vsum_subtractExtras_le (m B : LMap) (h : (mkeys m).Nodup) :
    vsum (subtractExtras m B) ≤ vsum m := by
  induction B generalizing m with
  | nil => exact Nat.le_refl _
  | cons p B ih =>
    unfold subtractExtras at ih ⊢
    rw [List.foldl_cons]
    by_cases h0 : mget m p.1 = 0
    · rw [if_pos h0]
      exact ih m h
    · rw [if_neg h0]
      have hk : (mkeys (mset m p.1 (mget m p.1 - p.2))).Nodup := nodup_mkeys_mset h
      refine (ih _ hk).trans ?_
      have := vsum_mset (m := m) (c := p.1) (v := mget m p.1 - p.2) h
      omega

/-! ### Claim C3 -/

/-- C3: for every word `w`, rack map `R`, wildcard count `j` and board-fixed
letter multiset `B`, the formability check (both the main-thread and the
worker copies of `canFormWordWithExtras`, and `canFormWord` for the absent-`B`
case) returns `canForm = true` iff
`Σ_c max(0, max(0, count_w(c) − B(c)) − R(c)) ≤ j`, and when it does, the
reported `wildcardsUsed` is exactly that sum. -/
theorem claim_C3 (w : List Char) (R : LMap) (j : Nat) (B : LMap)
    (hB : (mkeys B).Nodup) :
    ((Utils.canFormWordWithExtras w R j B).canForm = true ↔ wildcardsNeededSpec w R B ≤ j)
    ∧ ((Utils.canFormWordWithExtras w R j B).canForm = true →
        (Utils.canFormWordWithExtras w R j B).wildcardsUsed = wildcardsNeededSpec w R B)
    ∧ ((Worker.canFormWordWithExtras w R j B).canForm = true ↔ wildcardsNeededSpec w R B ≤ j)
    ∧ ((Worker.canFormWordWithExtras w R j B).canForm = true →
        (Worker.canFormWordWithExtras w R j B).wildcardsUsed = wildcardsNeededSpec w R B)
    ∧ ((Utils.canFormWord w R j).canForm = true ↔ wildcardsNeededSpec w R [] ≤ j)
    ∧ ((Utils.canFormWord w R j).canForm = true →
        (Utils.canFormWord w R j).wildcardsUsed = wildcardsNeededSpec w R []) := by
  have hx := formLoop_needed_extras w R B hB
  have hp := formLoop_needed_plain w R
  refine ⟨?_, ?_, ?_, ?_, ?_, ?_⟩
  · simp [Utils.canFormWordWithExtras, hx]
  · intro h
    simp only [Utils.canFormWordWithExtras, decide_eq_true_eq] at h ⊢
    rw [hx] at h ⊢
    rw [if_pos (by simpa using h)]
  · simp [Worker.canFormWordWithExtras, hx]
  · intro h
    simp only [Worker.canFormWordWithExtras, decide_eq_true_eq] at h ⊢
    rw [hx] at h ⊢
    rw [if_pos (by simpa using h)]
  · simp [Utils.canFormWord, hp]
  · intro h
    simp only [Utils.canFormWord, decide_eq_true_eq] at h ⊢
    rw [hp] at h ⊢
    rw [if_pos (by simpa using h)]

/-- Witness for C3 at a concrete input: rack {A}, one wildcard, board letter
B; the word AB needs 0 wildcards (B is on the board, A is in the rack). -/
theorem claim_C3_witness :
    (Utils.canFormWordWithExtras ['A', 'B'] [('A', 1)] 1 [('B', 2)]).canForm = true
    ∧ (Utils.canFormWordWithExtras ['A', 'B'] [('A', 1)] 1 [('B', 2)]).wildcardsUsed
        = wildcardsNeededSpec ['A', 'B'] [('A', 1)] [('B', 2)] := by
  have h := claim_C3 ['A', 'B'] [('A', 1)] 1 [('B', 2)] (by decide)
  have hc : (Utils.canFormWordWithExtras ['A', 'B'] [('A', 1)] 1 [('B', 2)]).canForm = true :=
    h.1.mpr (by decide)
  exact ⟨hc, h.2.1 hc⟩

/-! ### Claim C10 -/

/-- C10: all four formability functions return `wildcardsUsed = 0` whenever
`canForm` is false, and in every case `0 ≤ wildcardsUsed ≤ length word` (the
lower bound is inherent in the ℕ-valued model). -/
theorem claim_C10 (w : List Char) (R : LMap) (j : Nat) (B : LMap) :
    ((Utils.canFormWord w R j).canForm = false → (Utils.canFormWord w R j).wildcardsUsed = 0)
    ∧ (Utils.canFormWord w R j).wildcardsUsed ≤ w.length
    ∧ ((Utils.canFormWordWithExtras w R j B).canForm = false →
        (Utils.canFormWordWithExtras w R j B).wildcardsUsed = 0)
    ∧ (Utils.canFormWordWithExtras w R j B).wildcardsUsed ≤ w.length
    ∧ ((Worker.canFormWord w R j).canForm = false → (Worker.canFormWord w R j).wildcardsUsed = 0)
    ∧ (Worker.canFormWord w R j).wildcardsUsed ≤ w.length
    ∧ ((Worker.canFormWordWithExtras w R j B).canForm = false →
        (Worker.canFormWordWithExtras w R j B).wildcardsUsed = 0)
    ∧ (Worker.canFormWordWithExtras w R j B).wildcardsUsed ≤ w.length := by
  have hplain : (formLoop R false (countLetters w)).1 ≤ w.length := by
    have := formLoop_needed_le R false (countLetters w)
    rw [countLetters_vsum] at this
    exact this
  have hextra : (formLoop R true (subtractExtras (countLetters w) B)).1 ≤ w.length := by
    have h1 := formLoop_needed_le R true (subtractExtras (countLetters w) B)
    have h2 := vsum_subtractExtras_le (countLetters w) B (countLetters_nodup w)
    rw [countLetters_vsum] at h2
    omega
  refine ⟨?_, ?_, ?_, ?_, ?_, ?_, ?_, ?_⟩
  · intro h
    simp only [Utils.canFormWord] at h ⊢
    rw [if_neg (by simpa using h)]
  · simp only [Utils.canFormWord]
    split
    · exact hplain
    · exact Nat.zero_le _
  · intro h
    simp only [Utils.canFormWordWithExtras] at h ⊢
    rw [if_neg (by simpa using h)]
  · simp only [Utils.canFormWordWithExtras]
    split
    · exact hextra
    · exact Nat.zero_le _
  · intro h
    simp only [Worker.canFormWord] at h ⊢
    rw [if_neg (by simpa using h)]
  · simp only [Worker.canFormWord]
    split
    · exact hplain
    · exact Nat.zero_le _
  · intro h
    simp only [Worker.canFormWordWithExtras] at h ⊢
    rw [if_neg (by simpa using h)]
  · simp only [Worker.canFormWordWithExtras]
    split
    · exact hextra
    · exact Nat.zero_le _

/-- Witness for C10 at a concrete input where `canForm` is false. -/
theorem claim_C10_witness :
    (Utils.canFormWord ['A', 'B'] [] 0).canForm = false
    ∧ (Utils.canFormWord ['A', 'B'] [] 0).wildcardsUsed = 0
    ∧ (Utils.canFormWord ['A', 'B'] [] 0).wildcardsUsed ≤ 2 := by
  have h := claim_C10 ['A', 'B'] [] 0 []
  have hc : (Utils.canFormWord ['A', 'B'] [] 0).canForm = false := by decide
  exact ⟨hc, h.1 hc, h.2.1⟩

/-! ### Scoring lemmas -/

theorem foldl_sub_eq (l : List Nat) (t : Int) :
    l.foldl (fun t p => t - Int.ofNat p) t = t - (l.map fun n => Int.ofNat n).sum := by
  induction l generalizing t with
  | nil => simp
  | cons a l ih =>
    rw [List.foldl_cons, ih]
    simp only [List.map_cons, List.sum_cons]
    omega

theorem sum_take_le (l : List Nat) (k : Nat) : (l.take k).sum ≤ l.sum := by
  conv_rhs => rw [← List.take_append_drop k l]
  rw [List.sum_append]
  omega

theorem sortPointsDesc_perm (l : List Nat) : List.Perm (Scoring.sortPointsDesc l) l :=
  List.perm_insertionSort _ l

theorem sum_take_sortPointsDesc_le (l : List Nat) (k : Nat) :
    ((Scoring.sortPointsDesc l).take k).sum ≤ l.sum := by
  have h1 := sum_take_le (Scoring.sortPointsDesc l) k
  have h2 := (sortPointsDesc_perm l).sum_eq
  omega

/-- The claim's "sum of the `k` highest individual letter values": the point
values sorted descending, first `k` taken, summed. -/
def sumKHighest (vals : List Nat) (k : Nat) : Nat :=
  ((Scoring.sortPointsDesc vals).take k).sum

/-! ### Claim C4 -/

/-- C4: for `0 ≤ k ≤ length w`, `scoreWord w k` equals the sum of the word's
letter values minus the sum of the `k` highest letter values, and lies between
0 and the plain letter-value sum.  Both the scoring.js copy (values via
`getLetterValue`, which uppercases before the table lookup) and the
searchWorker.js copy (values via the raw `LETTER_VALUES` table, 0 for symbols
absent from it) satisfy this for their respective letter values. -/
theorem claim_C4 (w : List Char) (k : Nat) (hk : k ≤ w.length) :
    (Scoring.scoreWord w (k : Int)
        = ((w.map Scoring.getLetterValue).sum : Int)
          - (sumKHighest (w.map Scoring.getLetterValue) k : Int))
    ∧ 0 ≤ Scoring.scoreWord w (k : Int)
    ∧ Scoring.scoreWord w (k : Int) ≤ ((w.map Scoring.getLetterValue).sum : Int)
    ∧ (Worker.scoreWord w (k : Int)
        = ((w.map Scoring.LETTER_VALUES).sum : Int)
          - (sumKHighest (w.map Scoring.LETTER_VALUES) k : Int))
    ∧ 0 ≤ Worker.scoreWord w (k : Int)
    ∧ Worker.scoreWord w (k : Int) ≤ ((w.map Scoring.LETTER_VALUES).sum : Int) := by
  have main : ∀ (vals : List Nat), vals.length = w.length →
      (if w = [] ∨ (k : Int) < 0 then 0
       else
        if 0 < (k : Int) ∧ (k : Int) ≤ (w.length : Int) then
          ((Scoring.sortPointsDesc vals).take (k : Int).toNat).foldl
            (fun t p => t - Int.ofNat p) ((vals.map fun n => Int.ofNat n).sum)
        else (vals.map fun n => Int.ofNat n).sum)
      = (vals.sum : Int) - (sumKHighest vals k : Int) := by
    intro vals hlen
    have hcast : (vals.map fun n => Int.ofNat n).sum = (vals.sum : Int) := by
      induction vals with
      | nil => simp
      | cons a l ihl => simp [ihl]
    by_cases hw : w = []
    · subst hw
      have hv : vals = [] := List.eq_nil_of_length_eq_zero (by simpa using hlen)
      have hk0 : k = 0 := by simpa using hk
      subst hv hk0
      simp [sumKHighest, Scoring.sortPointsDesc]
    · rw [if_neg (by simp [hw])]
      by_cases hkpos : 0 < k
      · rw [if_pos (by constructor <;> [exact_mod_cast hkpos; exact_mod_cast hk])]
        rw [foldl_sub_eq, hcast]
        congr 1
        have htk : ((k : Int)).toNat = k := Int.toNat_natCast k
        rw [htk]
        unfold sumKHighest
        generalize (Scoring.sortPointsDesc vals).take k = tk
        induction tk with
        | nil => simp
        | cons a l ihl => simp [ihl]
      · have hk0 : k = 0 := by omega
        subst hk0
        rw [if_neg (by simp)]
        simp [sumKHighest, hcast]
  have hboundN : ∀ vals : List Nat, sumKHighest vals k ≤ vals.sum := by
    intro vals
    exact sum_take_sortPointsDesc_le vals k
  have e1 := main (w.map Scoring.getLetterValue) (by simp)
  have e2 := main (w.map Scoring.LETTER_VALUES) (by simp)
  have b1 := hboundN (w.map Scoring.getLetterValue)
  have b2 := hboundN (w.map Scoring.LETTER_VALUES)
  have s1 : Scoring.scoreWord w (k : Int)
      = ((w.map Scoring.getLetterValue).sum : Int)
        - (sumKHighest (w.map Scoring.getLetterValue) k : Int) := by
    unfold Scoring.scoreWord
    exact e1
  have s2 : Worker.scoreWord w (k : Int)
      = ((w.map Scoring.LETTER_VALUES).sum : Int)
        - (sumKHighest (w.map Scoring.LETTER_VALUES) k : Int) := by
    unfold Worker.scoreWord
    exact e2
  refine ⟨s1, ?_, ?_, s2, ?_, ?_⟩
  · rw [s1]; omega
  · rw [s1]; omega
  · rw [s2]; omega
  · rw [s2]; omega

/-- Witness for C4 at `w = TRÆ`, `k = 1`: score 7 − 4 = 3. -/
theorem claim_C4_witness :
    Scoring.scoreWord ['T', 'R', 'Æ'] ((1 : Nat) : Int)
        = ((['T', 'R', 'Æ'].map Scoring.getLetterValue).sum : Int)
          - (sumKHighest (['T', 'R', 'Æ'].map Scoring.getLetterValue) 1 : Int)
    ∧ 0 ≤ Scoring.scoreWord ['T', 'R', 'Æ'] ((1 : Nat) : Int)
    ∧ Scoring.scoreWord ['T', 'R', 'Æ'] ((1 : Nat) : Int)
        ≤ ((['T', 'R', 'Æ'].map Scoring.getLetterValue).sum : Int) := by
  have h := claim_C4 ['T', 'R', 'Æ'] 1 (by decide)
  exact ⟨h.1, h.2.1, h.2.2.1⟩

/-! ### Claim C5 -/

/-- C5 counterexample: for the non-empty word AB and `k = -1` (outside
`[0, length]`), `scoreWord` returns 0, not the plain letter-value sum 4, so
the out-of-range adjustment is not a no-op for negative `k`. -/
theorem claim_C5_counterexample :
    Scoring.scoreWord ['A', 'B'] (-1) = 0
    ∧ ((['A', 'B'].map Scoring.getLetterValue).sum : Int) = 4
    ∧ Scoring.scoreWord ['A', 'B'] (-1)
        ≠ ((['A', 'B'].map Scoring.getLetterValue).sum : Int) := by
  refine ⟨by decide, by decide, by decide⟩

/-- C5 amended: for a `k` outside `[0, length w]`, `scoreWord w k` equals the
plain letter-value sum when `k > length w`, but equals 0 (the guard clause)
when `k < 0`. -/
theorem claim_C5_amended (w : List Char) (k : Int)
    (h : k < 0 ∨ (w.length : Int) < k) :
    Scoring.scoreWord w k
      = if k < 0 then 0 else ((w.map Scoring.getLetterValue).sum : Int) := by
  unfold Scoring.scoreWord
  have hcast : ((w.map Scoring.getLetterValue).map fun n => Int.ofNat n).sum
      = ((w.map Scoring.getLetterValue).sum : Int) := by
    generalize w.map Scoring.getLetterValue = vals
    induction vals with
    | nil => simp
    | cons a l ihl => simp [ihl]
  by_cases hneg : k < 0
  · rw [if_pos (Or.inr hneg), if_pos hneg]
  · have hgt : (w.length : Int) < k := h.resolve_left hneg
    rw [if_neg hneg]
    by_cases hw : w = []
    · rw [if_pos (Or.inl hw)]
      subst hw
      simp
    · rw [if_neg (by simp [hw, hneg])]
      rw [if_neg (by intro hc; omega)]
      exact hcast

/-- Witness for C5 amended at `w = AB`, `k = 3 > 2`. -/
theorem claim_C5_witness :
    Scoring.scoreWord ['A', 'B'] 3
      = if (3 : Int) < 0 then 0 else ((['A', 'B'].map Scoring.getLetterValue).sum : Int) :=
  claim_C5_amended ['A', 'B'] 3 (Or.inr (by decide))

/-! ### Claim C7 -/

/-- C7: `matchesBoardPattern` returns `false` (no error escapes — the function
is total) whenever the trimmed, uppercased pattern exceeds 50 characters or
holds more than 15 wildcard symbols; at or below both caps (and a non-empty
pattern) it is not rejected by the caps but proceeds to the compiled anchored
match. -/
theorem claim_C7 (word pattern : List Char) :
    ((50 < (jsToUpper (jsTrim pattern)).length
        ∨ 15 < patWildcardCount (jsToUpper (jsTrim pattern)))
      → matchesBoardPattern word pattern = false)
    ∧ ((jsToUpper (jsTrim pattern)) ≠ []
      → (jsToUpper (jsTrim pattern)).length ≤ 50
      → patWildcardCount (jsToUpper (jsTrim pattern)) ≤ 15
      → matchesBoardPattern word pattern
          = globMatch (patTokens (jsToUpper (jsTrim pattern))) word) := by
  constructor
  · intro h
    unfold matchesBoardPattern
    rcases h with h | h
    · have hne : jsToUpper (jsTrim pattern) ≠ [] := by
        intro he
        rw [he] at h
        simp at h
      rw [if_neg hne, if_pos h]
    · have hne : jsToUpper (jsTrim pattern) ≠ [] := by
        intro he
        rw [he] at h
        simp [patWildcardCount] at h
      rw [if_neg hne]
      by_cases hlen : 50 < (jsToUpper (jsTrim pattern)).length
      · rw [if_pos hlen]
      · rw [if_neg hlen, if_pos h]
  · intro hne hlen hwc
    unfold matchesBoardPattern
    rw [if_neg hne, if_neg (by omega), if_neg (by omega)]

/-- Witness for C7: a 51-character pattern is rejected; a 50-character pattern
reaches the compiled match (and matches the 50-character word). -/
theorem claim_C7_witness :
    matchesBoardPattern ['A'] (List.replicate 51 'A') = false
    ∧ matchesBoardPattern (List.replicate 50 'A') (List.replicate 50 'A')
        = globMatch (patTokens (jsToUpper (jsTrim (List.replicate 50 'A'))))
            (List.replicate 50 'A') := by
  constructor
  · exact (claim_C7 ['A'] (List.replicate 51 'A')).1 (Or.inl (by decide))
  · exact (claim_C7 (List.replicate 50 'A') (List.replicate 50 'A')).2
      (by decide) (by decide) (by decide)

/-! ### Claim C6 -/

/-- C6 counterexample: the space in the rack string `"A B"` is itself a member
of `WILDCARD_CHARS`, so it increments the wildcard counter: `parseLetters`
reports 1 wildcard, not the 0 the claim's space-skipping rule predicts. -/
theorem claim_C6_counterexample :
    (Utils.parseLetters ['A', ' ', 'B']).wildcards = 1
    ∧ (Utils.parseLetters ['A', ' ', 'B']).wildcards ≠ 0 := by
  exact ⟨by decide, by decide⟩

theorem parse_fold_spec (l : List Char) (acc : LMap × Nat) :
    ((l.foldl (fun (acc : LMap × Nat) char =>
        if WILDCARD_CHARS.contains char then (acc.1, acc.2 + 1)
        else if char ≠ ' ' then (mset acc.1 char (mget acc.1 char + 1), acc.2)
        else acc) acc).2
      = acc.2 + (l.filter fun c => WILDCARD_CHARS.contains c).length)
    ∧ (∀ c, mget (l.foldl (fun (acc : LMap × Nat) char =>
        if WILDCARD_CHARS.contains char then (acc.1, acc.2 + 1)
        else if char ≠ ' ' then (mset acc.1 char (mget acc.1 char + 1), acc.2)
        else acc) acc).1 c
      = mget acc.1 c + if WILDCARD_CHARS.contains c then 0 else l.count c) := by
  induction l generalizing acc with
  | nil => simp
  | cons a l ih =>
    rw [List.foldl_cons]
    by_cases hw : WILDCARD_CHARS.contains a = true
    · rw [if_pos hw]
      have hrec := ih (acc.1, acc.2 + 1)
      refine ⟨?_, ?_⟩
      · have hfe : List.filter (fun c => WILDCARD_CHARS.contains c) (a :: l)
            = a :: List.filter (fun c => WILDCARD_CHARS.contains c) l :=
          @List.filter_cons_of_pos _ (fun c => WILDCARD_CHARS.contains c) a l hw
        rw [hrec.1, hfe, List.length_cons]
        omega
      · intro c
        rw [hrec.2 c]
        by_cases hcw : WILDCARD_CHARS.contains c = true
        · rw [if_pos hcw, if_pos hcw]
        · have hca : ¬ (a == c) = true := fun he => hcw ((beq_iff_eq.mp he) ▸ hw)
          rw [if_neg hcw, if_neg hcw, List.count_cons, if_neg hca]
          simp
    · rw [if_neg hw]
      have hsp : a ≠ ' ' := by
        intro he
        rw [he] at hw
        exact hw (by decide)
      rw [if_pos hsp]
      have hrec := ih (mset acc.1 a (mget acc.1 a + 1), acc.2)
      refine ⟨?_, ?_⟩
      · have hfe : List.filter (fun c => WILDCARD_CHARS.contains c) (a :: l)
            = List.filter (fun c => WILDCARD_CHARS.contains c) l :=
          @List.filter_cons_of_neg _ (fun c => WILDCARD_CHARS.contains c) a l (by simpa using hw)
        rw [hrec.1, hfe]
      · intro c
        rw [hrec.2 c]
        simp only []
        rw [mget_mset]
        by_cases hca : c = a
        · subst hca
          rw [if_pos rfl, if_neg hw, if_neg hw, List.count_cons, if_pos (by simp)]
          omega
        · rw [if_neg hca]
          by_cases hcw : WILDCARD_CHARS.contains c = true
          · rw [if_pos hcw, if_pos hcw]
          · have hac : ¬ (a == c) = true := fun he => hca ((beq_iff_eq.mp he)).symm
            rw [if_neg hcw, if_neg hcw, List.count_cons, if_neg hac]
            simp

theorem parse_fold_pos (l : List Char) (acc : LMap × Nat)
    (h : ∀ p ∈ acc.1, 0 < p.2) :
    ∀ p ∈ (l.foldl (fun (acc : LMap × Nat) char =>
        if WILDCARD_CHARS.contains char then (acc.1, acc.2 + 1)
        else if char ≠ ' ' then (mset acc.1 char (mget acc.1 char + 1), acc.2)
        else acc) acc).1, 0 < p.2 := by
  induction l generalizing acc with
  | nil => exact h
  | cons a l ih =>
    rw [List.foldl_cons]
    by_cases hw : WILDCARD_CHARS.contains a = true
    · rw [if_pos hw]
      exact ih (acc.1, acc.2 + 1) h
    · rw [if_neg hw]
      have hsp : a ≠ ' ' := by
        intro he
        rw [he] at hw
        exact hw (by decide)
      rw [if_pos hsp]
      refine ih _ ?_
      intro p hp
      simp only at hp
      unfold mset at hp
      by_cases hhas : mhas acc.1 a = true
      · rw [if_pos hhas] at hp
        rcases List.mem_map.mp hp with ⟨q, hq, hqe⟩
        by_cases hqa : (q.1 == a) = true
        · rw [if_pos hqa] at hqe
          rw [← hqe]
          exact Nat.succ_pos _
        · rw [if_neg hqa] at hqe
          exact hqe ▸ h q hq
      · rw [if_neg hhas] at hp
        rcases List.mem_append.mp hp with hq | hq
        · exact h p hq
        · rcases List.mem_singleton.mp hq with rfl
          exact Nat.succ_pos _

/-- C6 amended: `parseLetters` scans the normalized string so that each of
`?`, `_`, `*` AND each (normalization-surviving) space increments the
wildcard counter — the space-skipping branch is dead code, since the space is
itself listed in `WILDCARD_CHARS`; every other character increments its own
entry in the letter map, and no zero-count entry is ever stored. -/
theorem claim_C6_amended (s : List Char) :
    ((Utils.parseLetters s).wildcards
        = ((normalizeString s).filter fun c => WILDCARD_CHARS.contains c).length)
    ∧ (∀ c, WILDCARD_CHARS.contains c = true →
        mget (Utils.parseLetters s).letterCounts c = 0)
    ∧ (∀ c, WILDCARD_CHARS.contains c = false →
        mget (Utils.parseLetters s).letterCounts c = (normalizeString s).count c)
    ∧ (∀ p ∈ (Utils.parseLetters s).letterCounts, 0 < p.2) := by
  have hs := parse_fold_spec (normalizeString s) ([], 0)
  have hp := parse_fold_pos (normalizeString s) ([], 0) (by intro p hp; cases hp)
  refine ⟨?_, ?_, ?_, ?_⟩
  · simpa [Utils.parseLetters] using hs.1
  · intro c hc
    have h2 := hs.2 c
    rw [if_pos hc] at h2
    simpa [Utils.parseLetters, mget] using h2
  · intro c hc
    have h2 := hs.2 c
    have hcc : ¬ WILDCARD_CHARS.contains c = true := by
      rw [hc]
      exact Bool.false_ne_true
    rw [if_neg hcc] at h2
    simpa [Utils.parseLetters, mget] using h2
  · intro p hmem
    exact hp p (by simpa [Utils.parseLetters] using hmem)

/-! ### usedUserLetters characterization and engine membership -/

theorem usedUserLetters_canFormWord (w : List Char) (R : LMap) (j : Nat) :
    (Utils.canFormWord w R j).usedUserLetters = true
      ↔ (∃ c, w.count c ≠ 0 ∧ 0 < mget R c) ∨ 0 < wildcardsNeededSpec w R [] := by
  have hused := formLoop_used_plain w R
  have hneed := formLoop_needed_plain w R
  simp only [Utils.canFormWord, Bool.or_eq_true, decide_eq_true_eq]
  rw [hused, hneed]

theorem usedUserLetters_canFormWordWithExtras (w : List Char) (R : LMap) (j : Nat)
    (B : LMap) (hB : (mkeys B).Nodup) :
    (Utils.canFormWordWithExtras w R j B).usedUserLetters = true
      ↔ (∃ c, w.count c - mget B c ≠ 0 ∧ 0 < mget R c)
        ∨ 0 < wildcardsNeededSpec w R B := by
  have hused := formLoop_used_extras w R B hB
  have hneed := formLoop_needed_extras w R B hB
  simp only [Utils.canFormWordWithExtras, Bool.or_eq_true, decide_eq_true_eq]
  rw [hused, hneed]

theorem buildExtra_fold_nodup (l : List Char) (m : LMap) (h : (mkeys m).Nodup) :
    (mkeys (l.foldl
      (fun m ch => if DANISH_ALPHABET.contains ch then mset m ch (mget m ch + 1) else m)
      m)).Nodup := by
  induction l generalizing m with
  | nil => exact h
  | cons a l ih =>
    rw [List.foldl_cons]
    by_cases ha : DANISH_ALPHABET.contains a = true
    · rw [if_pos ha]
      exact ih _ (nodup_mkeys_mset h)
    · rw [if_neg ha]
      exact ih _ h

theorem buildExtra_nodup (p : Option (List Char)) :
    (mkeys (Utils.buildExtraLettersFromPattern p)).Nodup := by
  rcases p with _ | s
  · simp [Utils.buildExtraLettersFromPattern, mkeys]
  · simp only [Utils.buildExtraLettersFromPattern]
    by_cases hs : s = []
    · rw [if_pos hs]
      simp [mkeys]
    · rw [if_neg hs]
      exact buildExtra_fold_nodup _ [] (by simp [mkeys])

theorem mem_sortResults {l : List Candidate} {k : List Char} {r : Candidate} :
    r ∈ sortResults l k ↔ r ∈ l := by
  unfold sortResults jsSort
  by_cases h1 : k = "score".toList
  · rw [if_pos h1]
    exact (List.perm_insertionSort _ l).mem_iff
  · rw [if_neg h1]
    by_cases h2 : k = "length".toList
    · rw [if_pos h2]
      exact (List.perm_insertionSort _ l).mem_iff
    · rw [if_neg h2]
      by_cases h3 : k = "alpha".toList
      · rw [if_pos h3]
        exact (List.perm_insertionSort _ l).mem_iff
      · rw [if_neg h3]
        exact (List.perm_insertionSort _ l).mem_iff

/-- Every candidate collected by the searchWords loop passed the
formability-and-rack-letter checks for its own word. -/
theorem search_fold_prop (lc : LMap) (wc : Nat) (ex : LMap) (fs : Filters)
    (ws : List (List Char)) (acc : List Candidate × List (List Char))
    (hacc : ∀ r ∈ acc.1,
      (if ex ≠ [] then Utils.canFormWordWithExtras r.word lc wc ex
       else Utils.canFormWord r.word lc wc).canForm = true
      ∧ (if ex ≠ [] then Utils.canFormWordWithExtras r.word lc wc ex
         else Utils.canFormWord r.word lc wc).usedUserLetters = true) :
    ∀ r ∈ (ws.foldl (SearchEngine.searchStep lc wc ex fs) acc).1,
      (if ex ≠ [] then Utils.canFormWordWithExtras r.word lc wc ex
       else Utils.canFormWord r.word lc wc).canForm = true
      ∧ (if ex ≠ [] then Utils.canFormWordWithExtras r.word lc wc ex
         else Utils.canFormWord r.word lc wc).usedUserLetters = true := by
  induction ws generalizing acc with
  | nil => exact hacc
  | cons word ws ih =>
    rw [List.foldl_cons]
    apply ih
    intro r hr
    unfold SearchEngine.searchStep at hr
    by_cases hseen : acc.2.contains (jsTrim (jsToUpper word)) = true
    · rw [if_pos hseen] at hr
      exact hacc r hr
    · rw [if_neg hseen] at hr
      simp only at hr
      set fr := if ex ≠ [] then Utils.canFormWordWithExtras word lc wc ex
        else Utils.canFormWord word lc wc with hfr
      by_cases hcf : fr.canForm = false
      · rw [if_pos hcf] at hr
        exact hacc r hr
      · rw [if_neg hcf] at hr
        by_cases hu : fr.usedUserLetters = false
        · rw [if_pos hu] at hr
          exact hacc r hr
        · rw [if_neg hu] at hr
          by_cases hpf : SearchEngine.passesFilters word fs = false
          · rw [if_pos hpf] at hr
            exact hacc r hr
          · rw [if_neg hpf] at hr
            simp only at hr
            rcases List.mem_append.mp hr with hold | hnew
            · exact hacc r hold
            · rcases List.mem_singleton.mp hnew with rfl
              refine ⟨?_, ?_⟩
              · show fr.canForm = true
                exact eq_true_of_ne_false hcf
              · show fr.usedUserLetters = true
                exact eq_true_of_ne_false hu

/-! ### Claim C1 -/

/-- C1 counterexample: for the rack `"??"` (two wildcards, no genuine rack
letters, empty letter map) and the dictionary `{AB}`, the engine returns the
word AB, formed entirely from wildcards — the "Jokers should also count as my
letters" rule in utils.js `canFormWord` sets `usedUserLetters` whenever
wildcards are consumed, so such words are not rejected. -/
theorem claim_C1_counterexample :
    SearchEngine.searchWords ['?', '?'] {} [['A', 'B']]
        = [⟨['A', 'B'], 0, 2, 2⟩]
    ∧ (Utils.parseLetters ['?', '?']).letterCounts = [] := by
  exact ⟨by decide, by decide⟩

/-- C1 amended: the engine accepts a word only if at least one genuine rack
letter is used OR at least one wildcard is consumed: every returned result
has some letter not fully absorbed by the board-fixed letters that the rack
supplies, or a positive residual wildcard need.  (Words formable from
board-fixed letters alone are still never returned.) -/
theorem claim_C1_amended (ls : List Char) (fs : Filters) (ws : List (List Char))
    (r : Candidate) (h : r ∈ SearchEngine.searchWords ls fs ws) :
    (∃ c, List.count c r.word
        - mget (Utils.buildExtraLettersFromPattern fs.boardPattern) c ≠ 0
      ∧ 0 < mget (Utils.parseLetters ls).letterCounts c)
    ∨ 0 < wildcardsNeededSpec r.word (Utils.parseLetters ls).letterCounts
        (Utils.buildExtraLettersFromPattern fs.boardPattern) := by
  set lc := (Utils.parseLetters ls).letterCounts with hlc
  set wc := (Utils.parseLetters ls).wildcards with hwc
  set ex := Utils.buildExtraLettersFromPattern fs.boardPattern with hex
  have hmem : r ∈ (ws.foldl (SearchEngine.searchStep lc wc ex fs) ([], [])).1 := by
    have := h
    unfold SearchEngine.searchWords at this
    exact mem_sortResults.mp this
  have hprop := search_fold_prop lc wc ex fs ws ([], []) (by intro r hr; cases hr) r hmem
  by_cases hexe : ex ≠ []
  · rw [if_pos hexe] at hprop
    have := (usedUserLetters_canFormWordWithExtras r.word lc wc ex
      (hex ▸ buildExtra_nodup fs.boardPattern)).mp hprop.2
    exact this
  · rw [if_neg hexe] at hprop
    have hB : ex = [] := by
      by_contra hne
      exact hexe hne
    have := (usedUserLetters_canFormWord r.word lc wc).mp hprop.2
    rw [hB]
    exact this

/-- Witness for C1 amended: rack AB, dictionary {AB}; the returned result AB
uses genuine rack letters. -/
theorem claim_C1_witness :
    (∃ c, List.count c ['A', 'B']
        - mget (Utils.buildExtraLettersFromPattern (({} : Filters)).boardPattern) c ≠ 0
      ∧ 0 < mget (Utils.parseLetters ['A', 'B']).letterCounts c)
    ∨ 0 < wildcardsNeededSpec ['A', 'B'] (Utils.parseLetters ['A', 'B']).letterCounts
        (Utils.buildExtraLettersFromPattern (({} : Filters)).boardPattern) :=
  claim_C1_amended ['A', 'B'] {} [['A', 'B']] ⟨['A', 'B'], 4, 2, 0⟩ (by decide)

/-! ### compareDanish order theory (claim C9) -/

theorem cdLoop_antisym (a b : List Char) : Utils.cdLoop b a = -Utils.cdLoop a b := by
  induction a generalizing b with
  | nil =>
    cases b with
    | nil => simp [Utils.cdLoop]
    | cons y bs => simp [Utils.cdLoop]
  | cons x as ih =>
    cases b with
    | nil => simp [Utils.cdLoop]
    | cons y bs =>
      by_cases hxy : Utils.danishIndexOf x = Utils.danishIndexOf y
      · simp only [Utils.cdLoop, hxy]
        rw [if_neg (by simp), if_neg (by simp)]
        exact ih bs
      · simp only [Utils.cdLoop]
        rw [if_pos (by simpa using Ne.symm hxy), if_pos (by simpa using hxy)]
        omega

theorem cdLoop_trans_le {a b c : List Char} (h1 : Utils.cdLoop a b ≤ 0)
    (h2 : Utils.cdLoop b c ≤ 0) : Utils.cdLoop a c ≤ 0 := by
  induction a generalizing b c with
  | nil =>
    cases c with
    | nil => simp [Utils.cdLoop]
    | cons z cs =>
      simp [Utils.cdLoop]
      omega
  | cons x as ih =>
    cases b with
    | nil =>
      exfalso
      simp [Utils.cdLoop] at h1
      omega
    | cons y bs =>
      cases c with
      | nil =>
        exfalso
        simp [Utils.cdLoop] at h2
        omega
      | cons z cs =>
        simp only [Utils.cdLoop] at h1 h2 ⊢
        by_cases hxy : Utils.danishIndexOf x = Utils.danishIndexOf y
        · rw [if_neg (by simp [hxy])] at h1
          by_cases hyz : Utils.danishIndexOf y = Utils.danishIndexOf z
          · rw [if_neg (by simp [hyz])] at h2
            rw [if_neg (by simp [hxy, hyz])]
            exact ih h1 h2
          · rw [if_pos (by simpa using hyz)] at h2
            rw [if_pos (by simp [hxy]; omega), hxy]
            omega
        · rw [if_pos (by simpa using hxy)] at h1
          by_cases hyz : Utils.danishIndexOf y = Utils.danishIndexOf z
          · rw [if_pos (by rw [← hyz]; simpa using hxy), ← hyz]
            omega
          · rw [if_pos (by simpa using hyz)] at h2
            rw [if_pos (by simp; omega)]
            omega

theorem cdLoop_le_total (a b : List Char) :
    Utils.cdLoop a b ≤ 0 ∨ Utils.cdLoop b a ≤ 0 := by
  have := cdLoop_antisym a b
  omega

/-- The position of a symbol in the fixed 29-symbol Danish alphabet (29 for
symbols outside it, which the claim does not cover). -/
def alphaPos (c : Char) : Nat :=
  match DANISH_ALPHABET.findIdx? (fun d => d == c) with
  | some i => i
  | none => 29

/-- The ordering stated by the claim: lexicographic by alphabet position,
shorter word first when one is a prefix of the other. -/
def specAlphaLt : List Char → List Char → Prop
  | _, [] => False
  | [], _ :: _ => True
  | a :: as, b :: bs =>
    alphaPos a < alphaPos b ∨ (alphaPos a = alphaPos b ∧ specAlphaLt as bs)

theorem danishIndexOf_of_mem {c : Char} (h : c ∈ DANISH_ALPHABET) :
    Utils.danishIndexOf c = (alphaPos c : Int) := by
  unfold Utils.danishIndexOf alphaPos
  have : (DANISH_ALPHABET.findIdx? (fun d => d == c)).isSome := by
    rw [List.findIdx?_isSome]
    exact List.any_eq_true.mpr ⟨c, h, by simp⟩
  match hfi : DANISH_ALPHABET.findIdx? (fun d => d == c) with
  | some i => rfl
  | none => rw [hfi] at this; cases this

theorem specAlphaLt_iff_cdLoop (a b : List Char)
    (ha : ∀ c ∈ a, c ∈ DANISH_ALPHABET) (hb : ∀ c ∈ b, c ∈ DANISH_ALPHABET) :
    specAlphaLt a b ↔ Utils.cdLoop a b < 0 := by
  induction a generalizing b with
  | nil =>
    cases b with
    | nil => simp [specAlphaLt, Utils.cdLoop]
    | cons y bs =>
      simp [specAlphaLt, Utils.cdLoop]
      omega
  | cons x as ih =>
    cases b with
    | nil =>
      simp [specAlphaLt, Utils.cdLoop]
      omega
    | cons y bs =>
      have hx : x ∈ DANISH_ALPHABET := ha x (List.mem_cons_self _ _)
      have hy : y ∈ DANISH_ALPHABET := hb y (List.mem_cons_self _ _)
      have ha' : ∀ c ∈ as, c ∈ DANISH_ALPHABET := fun c hc => ha c (List.mem_cons_of_mem _ hc)
      have hb' : ∀ c ∈ bs, c ∈ DANISH_ALPHABET := fun c hc => hb c (List.mem_cons_of_mem _ hc)
      have ex := danishIndexOf_of_mem hx
      have ey := danishIndexOf_of_mem hy
      show (alphaPos x < alphaPos y ∨ (alphaPos x = alphaPos y ∧ specAlphaLt as bs))
        ↔ Utils.cdLoop (x :: as) (y :: bs) < 0
      simp only [Utils.cdLoop]
      by_cases hxy : alphaPos x = alphaPos y
      · rw [if_neg (by rw [ex, ey]; simp [hxy])]
        rw [ih bs ha' hb']
        constructor
        · rintro (h | ⟨_, h⟩)
          · omega
          · exact h
        · intro h
          exact Or.inr ⟨hxy, h⟩
      · rw [if_pos (by rw [ex, ey]; simpa using fun he => hxy (by exact_mod_cast he))]
        rw [ex, ey]
        constructor
        · rintro (h | ⟨he, _⟩)
          · omega
          · exact absurd he hxy
        · intro h
          left
          omega

/-! ### Claim C9 -/

theorem alphaCompare_le_iff (a b : Candidate) :
    alphaCompare a b ≤ 0 ↔ Utils.compareDanish a.word b.word ≤ 0 := by
  unfold alphaCompare
  exact_mod_cast Iff.rfl

/-- C9: sorting with `sortBy = 'alpha'` permutes the results into a list in
which no element is strictly preceded (in the claim's order: lexicographic by
position in the fixed 29-symbol Danish alphabet, shorter-prefix-first) by a
later element, for result words over the alphabet. -/
theorem claim_C9 (rs : List Candidate)
    (h : ∀ r ∈ rs, ∀ c ∈ jsToUpper r.word, c ∈ DANISH_ALPHABET) :
    List.Perm (sortResults rs "alpha".toList) rs
    ∧ (sortResults rs "alpha".toList).Pairwise
        (fun a b => ¬ specAlphaLt (jsToUpper b.word) (jsToUpper a.word)) := by
  have hsr : sortResults rs "alpha".toList
      = List.insertionSort (fun a b => alphaCompare a b ≤ 0) rs := by
    unfold sortResults jsSort
    rw [if_neg (by decide), if_neg (by decide), if_pos rfl]
  have hperm : List.Perm (sortResults rs "alpha".toList) rs := by
    rw [hsr]
    exact List.perm_insertionSort _ rs
  refine ⟨hperm, ?_⟩
  have hsorted : (sortResults rs "alpha".toList).Pairwise
      (fun a b => alphaCompare a b ≤ 0) := by
    rw [hsr]
    letI : IsTotal Candidate (fun a b => alphaCompare a b ≤ 0) := by
      constructor
      intro a b
      rw [alphaCompare_le_iff, alphaCompare_le_iff]
      exact cdLoop_le_total _ _
    letI : IsTrans Candidate (fun a b => alphaCompare a b ≤ 0) := by
      constructor
      intro a b c hab hbc
      rw [alphaCompare_le_iff] at hab hbc ⊢
      exact cdLoop_trans_le hab hbc
    exact List.sorted_insertionSort _ rs
  refine hsorted.imp_of_mem ?_
  intro a b ha hb hle
  have haM : ∀ c ∈ jsToUpper a.word, c ∈ DANISH_ALPHABET := h a (hperm.mem_iff.mp ha)
  have hbM : ∀ c ∈ jsToUpper b.word, c ∈ DANISH_ALPHABET := h b (hperm.mem_iff.mp hb)
  rw [alphaCompare_le_iff] at hle
  intro hlt
  rw [specAlphaLt_iff_cdLoop _ _ hbM haM] at hlt
  have := cdLoop_antisym (jsToUpper a.word) (jsToUpper b.word)
  unfold Utils.compareDanish at hle
  omega

/-- Witness for C9 on the spec's concrete scenario: ABE sorts before ÅBEN and
ÅL because Å has position 28, after Z. -/
theorem claim_C9_witness :
    List.Perm (sortResults
        [⟨['Å', 'L'], 6, 2, 0⟩, ⟨['Å', 'B', 'E', 'N'], 9, 4, 0⟩, ⟨['A', 'B', 'E'], 5, 3, 0⟩]
        "alpha".toList)
      [⟨['Å', 'L'], 6, 2, 0⟩, ⟨['Å', 'B', 'E', 'N'], 9, 4, 0⟩, ⟨['A', 'B', 'E'], 5, 3, 0⟩]
    ∧ (sortResults
        [⟨['Å', 'L'], 6, 2, 0⟩, ⟨['Å', 'B', 'E', 'N'], 9, 4, 0⟩, ⟨['A', 'B', 'E'], 5, 3, 0⟩]
        "alpha".toList).Pairwise
        (fun a b => ¬ specAlphaLt (jsToUpper b.word) (jsToUpper a.word)) :=
  claim_C9 _ (by decide)

/-! ### Claim C8 -/

/-- Points per letter, as computed by the score comparator. -/
def ratio (r : Candidate) : ℚ := (r.score : ℚ) / (r.length : ℚ)

/-- The ordering the claim states for `sortBy = 'score'`: score descending,
then wildcards used ascending, then points-per-letter descending. -/
def specScoreLe (a b : Candidate) : Prop :=
  b.score < a.score
  ∨ (b.score = a.score
     ∧ (a.usedJokers < b.usedJokers
        ∨ (a.usedJokers = b.usedJokers ∧ ratio b ≤ ratio a)))

theorem scoreCompare_le_iff (a b : Candidate) :
    scoreCompare a b ≤ 0 ↔ specScoreLe a b := by
  unfold scoreCompare specScoreLe ratio
  by_cases hs : b.score = a.score
  · rw [if_neg (by simpa using hs)]
    by_cases hj : a.usedJokers = b.usedJokers
    · rw [if_neg (by simpa using hj)]
      constructor
      · intro h
        refine Or.inr ⟨hs, Or.inr ⟨hj, ?_⟩⟩
        linarith
      · rintro (h | ⟨_, h | ⟨_, h⟩⟩)
        · omega
        · omega
        · linarith
    · rw [if_pos hj]
      constructor
      · intro h
        have : (a.usedJokers : ℚ) ≤ (b.usedJokers : ℚ) := by linarith
        have hle : a.usedJokers ≤ b.usedJokers := by exact_mod_cast this
        exact Or.inr ⟨hs, Or.inl (lt_of_le_of_ne hle hj)⟩
      · rintro (h | ⟨_, h | ⟨he, _⟩⟩)
        · omega
        · have : (a.usedJokers : ℚ) < (b.usedJokers : ℚ) := by exact_mod_cast h
          linarith
        · exact absurd he hj
  · rw [if_pos hs]
    constructor
    · intro h
      have : (b.score : ℚ) ≤ (a.score : ℚ) := by linarith
      have hle : b.score ≤ a.score := by exact_mod_cast this
      exact Or.inl (lt_of_le_of_ne hle hs)
    · rintro (h | ⟨he, _⟩)
      · have : (b.score : ℚ) < (a.score : ℚ) := by exact_mod_cast h
        linarith
      · exact absurd he hs

theorem specScoreLe_total (a b : Candidate) : specScoreLe a b ∨ specScoreLe b a := by
  unfold specScoreLe
  rcases lt_trichotomy a.score b.score with h | h | h
  · right; left; exact h
  · rcases lt_trichotomy a.usedJokers b.usedJokers with hj | hj | hj
    · left; exact Or.inr ⟨h.symm, Or.inl hj⟩
    · rcases le_total (ratio b) (ratio a) with hr | hr
      · left; exact Or.inr ⟨h.symm, Or.inr ⟨hj, hr⟩⟩
      · right; exact Or.inr ⟨h, Or.inr ⟨hj.symm, hr⟩⟩
    · right; exact Or.inr ⟨h, Or.inl hj⟩
  · left; left; exact h

theorem specScoreLe_trans {a b c : Candidate} (h1 : specScoreLe a b)
    (h2 : specScoreLe b c) : specScoreLe a c := by
  unfold specScoreLe at h1 h2 ⊢
  rcases h1 with h1 | ⟨hs1, h1⟩
  · rcases h2 with h2 | ⟨hs2, _⟩
    · left; omega
    · left; omega
  · rcases h2 with h2 | ⟨hs2, h2⟩
    · left; omega
    · rcases h1 with h1 | ⟨hj1, hr1⟩
      · rcases h2 with h2 | ⟨hj2, _⟩
        · exact Or.inr ⟨by omega, Or.inl (by omega)⟩
        · exact Or.inr ⟨by omega, Or.inl (by omega)⟩
      · rcases h2 with h2 | ⟨hj2, hr2⟩
        · exact Or.inr ⟨by omega, Or.inl (by omega)⟩
        · exact Or.inr ⟨by omega, Or.inr ⟨by omega, le_trans hr2 hr1⟩⟩

theorem defaultCompare_le_iff (a b : Candidate) :
    defaultCompare a b ≤ 0 ↔ b.score ≤ a.score := by
  unfold defaultCompare
  constructor
  · intro h
    have : (b.score : ℚ) ≤ (a.score : ℚ) := by linarith
    exact_mod_cast this
  · intro h
    have : (b.score : ℚ) ≤ (a.score : ℚ) := by exact_mod_cast h
    linarith

/-- C8 counterexample: with an unrecognized `sortBy` the default branch sorts
by score only; two equal-score results stay in insertion order even though the
claimed tie-breaks (fewer jokers first) demand the other order. -/
theorem claim_C8_counterexample :
    sortResults [⟨['A', 'B'], 4, 2, 1⟩, ⟨['D', 'E'], 4, 2, 0⟩] "foo".toList
        = [⟨['A', 'B'], 4, 2, 1⟩, ⟨['D', 'E'], 4, 2, 0⟩]
    ∧ ¬ specScoreLe ⟨['A', 'B'], 4, 2, 1⟩ ⟨['D', 'E'], 4, 2, 0⟩ := by
  constructor
  · unfold sortResults jsSort
    rw [if_neg (by decide), if_neg (by decide), if_neg (by decide)]
    simp only [List.insertionSort, List.orderedInsert]
    norm_num [defaultCompare]
  · unfold specScoreLe
    intro h
    rcases h with h | ⟨_, h | ⟨h, _⟩⟩
    · simp at h
    · simp at h
    · simp at h

/-- C8 amended: with `sortBy = 'score'` (and for an absent `sortBy`, which the
`filters.sortBy || 'score'` default maps to `'score'`) the result list is a
permutation ordered by score descending, then jokers ascending, then
points-per-letter descending; but an unrecognized `sortBy` takes the `default`
branch, which orders by score descending only. -/
theorem claim_C8_amended (rs : List Candidate) (s : List Char)
    (hs : s ≠ "score".toList ∧ s ≠ "length".toList ∧ s ≠ "alpha".toList) :
    (List.Perm (sortResults rs "score".toList) rs
      ∧ (sortResults rs "score".toList).Pairwise specScoreLe)
    ∧ sortKeyOf none = "score".toList
    ∧ (List.Perm (sortResults rs s) rs
      ∧ (sortResults rs s).Pairwise (fun a b => b.score ≤ a.score)) := by
  have hsc : sortResults rs "score".toList
      = List.insertionSort (fun a b => scoreCompare a b ≤ 0) rs := by
    unfold sortResults jsSort
    rw [if_pos rfl]
  have hdef : sortResults rs s
      = List.insertionSort (fun a b => defaultCompare a b ≤ 0) rs := by
    unfold sortResults jsSort
    rw [if_neg hs.1, if_neg hs.2.1, if_neg hs.2.2]
  refine ⟨⟨?_, ?_⟩, rfl, ?_, ?_⟩
  · rw [hsc]
    exact List.perm_insertionSort _ rs
  · rw [hsc]
    letI : IsTotal Candidate (fun a b => scoreCompare a b ≤ 0) := by
      constructor
      intro a b
      rw [scoreCompare_le_iff, scoreCompare_le_iff]
      exact specScoreLe_total a b
    letI : IsTrans Candidate (fun a b => scoreCompare a b ≤ 0) := by
      constructor
      intro a b c hab hbc
      rw [scoreCompare_le_iff] at hab hbc ⊢
      exact specScoreLe_trans hab hbc
    have := List.sorted_insertionSort (fun a b => scoreCompare a b ≤ 0) rs
    exact this.imp fun h => (scoreCompare_le_iff _ _).mp h
  · rw [hdef]
    exact List.perm_insertionSort _ rs
  · rw [hdef]
    letI : IsTotal Candidate (fun a b => defaultCompare a b ≤ 0) := by
      constructor
      intro a b
      rw [defaultCompare_le_iff, defaultCompare_le_iff]
      omega
    letI : IsTrans Candidate (fun a b => defaultCompare a b ≤ 0) := by
      constructor
      intro a b c hab hbc
      rw [defaultCompare_le_iff] at hab hbc ⊢
      omega
    have := List.sorted_insertionSort (fun a b => defaultCompare a b ≤ 0) rs
    exact this.imp fun h => (defaultCompare_le_iff _ _).mp h

/-- Witness for C8 amended at a concrete list and the unrecognized key
`"foo"`. -/
theorem claim_C8_witness :
    (List.Perm (sortResults [⟨['A', 'B'], 4, 2, 1⟩, ⟨['D', 'E'], 4, 2, 0⟩] "score".toList)
        [⟨['A', 'B'], 4, 2, 1⟩, ⟨['D', 'E'], 4, 2, 0⟩]
      ∧ (sortResults [⟨['A', 'B'], 4, 2, 1⟩, ⟨['D', 'E'], 4, 2, 0⟩]
          "score".toList).Pairwise specScoreLe)
    ∧ sortKeyOf none = "score".toList
    ∧ (List.Perm (sortResults [⟨['A', 'B'], 4, 2, 1⟩, ⟨['D', 'E'], 4, 2, 0⟩] "foo".toList)
        [⟨['A', 'B'], 4, 2, 1⟩, ⟨['D', 'E'], 4, 2, 0⟩]
      ∧ (sortResults [⟨['A', 'B'], 4, 2, 1⟩, ⟨['D', 'E'], 4, 2, 0⟩]
          "foo".toList).Pairwise (fun a b => b.score ≤ a.score)) :=
  claim_C8_amended [⟨['A', 'B'], 4, 2, 1⟩, ⟨['D', 'E'], 4, 2, 0⟩] "foo".toList
    ⟨by decide, by decide, by decide⟩

/-! ### Whitespace and case helpers for the worker/main equivalence -/

theorem isWS_danishToUpper (c : Char) : isWS (danishToUpper c) = isWS c := by
  unfold danishToUpper
  match hf : (lowerChars.zip upperChars).find? (fun q => q.1 == c) with
  | none => rw [hf]
  | some p =>
    rw [hf]
    have hp : p ∈ lowerChars.zip upperChars := List.mem_of_find?_eq_some hf
    have hpc := List.find?_some hf
    have hc : p.1 = c := by simpa using hpc
    have h1 : ∀ q ∈ lowerChars.zip upperChars, isWS q.2 = false := by decide
    have h2 : ∀ q ∈ lowerChars.zip upperChars, isWS q.1 = false := by decide
    rw [h1 p hp, ← hc, h2 p hp]

theorem dropWhile_eq_self_of {p : Char → Bool} {l : List Char}
    (h : ∀ c ∈ l, p c = false) : l.dropWhile p = l := by
  cases l with
  | nil => rfl
  | cons a l =>
    rw [List.dropWhile_cons_of_neg]
    rw [h a (List.mem_cons_self _ _)]
    exact Bool.false_ne_true

theorem jsTrim_noWS {l : List Char} (h : ∀ c ∈ l, isWS c = false) : jsTrim l = l := by
  unfold jsTrim
  rw [dropWhile_eq_self_of h]
  rw [dropWhile_eq_self_of (by intro c hc; exact h c (List.mem_reverse.mp hc))]
  exact List.reverse_reverse l

theorem collapseAux_noWS {l : List Char} (h : ∀ c ∈ l, isWS c = false) (b : Bool) :
    collapseAux b l = l := by
  induction l generalizing b with
  | nil => rfl
  | cons a l ih =>
    unfold collapseAux
    rw [if_neg (by rw [h a (List.mem_cons_self _ _)]; exact Bool.false_ne_true)]
    rw [ih (fun c hc => h c (List.mem_cons_of_mem _ hc))]

theorem jsToUpper_noWS {l : List Char} (h : ∀ c ∈ l, isWS c = false) :
    ∀ c ∈ jsToUpper l, isWS c = false := by
  intro c hc
  rcases List.mem_map.mp hc with ⟨d, hd, rfl⟩
  rw [isWS_danishToUpper]
  exact h d hd

theorem normalizeString_noWS {s : List Char} (h : ∀ c ∈ s, isWS c = false) :
    normalizeString s = jsToUpper (jsTrim s) := by
  by_cases hs : s = []
  · subst hs
    rfl
  · unfold normalizeString collapseSpaces
    rw [if_neg hs, jsTrim_noWS h, collapseAux_noWS (jsToUpper_noWS h)]

theorem worker_parseLetters_eq (s : List Char) :
    Worker.parseLetters s = Utils.parseLetters s := by
  unfold Worker.parseLetters Utils.parseLetters normalizeString collapseSpaces
  by_cases hs : s = []
  · subst hs
    rfl
  · rw [if_neg hs]

theorem worker_buildExtra_eq (p : Option (List Char))
    (h : ∀ s, p = some s → ∀ c ∈ s, isWS c = false) :
    Worker.buildExtraLettersFromPattern p = Utils.buildExtraLettersFromPattern p := by
  rcases p with _ | s
  · rfl
  · simp only [Worker.buildExtraLettersFromPattern, Utils.buildExtraLettersFromPattern]
    by_cases hs : s = []
    · rw [if_pos hs, if_pos hs]
    · rw [if_neg hs, if_neg hs, normalizeString_noWS (h s rfl)]

theorem worker_passesFilters_eq (fs : Filters)
    (h : ∀ s, fs.boardPattern = some s → ∀ c ∈ s, isWS c = false) (w : List Char) :
    Worker.passesFilters w fs = SearchEngine.passesFilters w fs := by
  unfold Worker.passesFilters SearchEngine.passesFilters
  rcases hbp : fs.boardPattern with _ | bp
  · rfl
  · simp only []
    by_cases hbpe : bp = []
    · rw [if_pos hbpe, if_pos hbpe]
    · rw [if_neg hbpe, if_neg hbpe, normalizeString_noWS (h bp hbp)]

theorem worker_scoreWord_eq (w : List Char) (hw : ∀ c ∈ w, danishToUpper c = c)
    (k : Int) : Worker.scoreWord w k = Scoring.scoreWord w k := by
  have hmap : w.map Scoring.getLetterValue = w.map Scoring.LETTER_VALUES := by
    apply List.map_congr_left
    intro c hc
    unfold Scoring.getLetterValue
    rw [hw c hc]
  unfold Worker.scoreWord Scoring.scoreWord
  rw [hmap]

theorem canFormWithExtras_agree_j0 (w : List Char) (lc ex : LMap) :
    (Utils.canFormWordWithExtras w lc 0 ex).canForm
        = (Worker.canFormWordWithExtras w lc 0 ex).canForm
    ∧ (Utils.canFormWordWithExtras w lc 0 ex).wildcardsUsed
        = (Worker.canFormWordWithExtras w lc 0 ex).wildcardsUsed
    ∧ ((Utils.canFormWordWithExtras w lc 0 ex).canForm = true →
        (Utils.canFormWordWithExtras w lc 0 ex).usedUserLetters
          = (Worker.canFormWordWithExtras w lc 0 ex).usedUserLetters) := by
  unfold Utils.canFormWordWithExtras Worker.canFormWordWithExtras
  refine ⟨rfl, rfl, ?_⟩
  intro h
  simp only [decide_eq_true_eq] at h ⊢
  have h0 : (formLoop lc true (subtractExtras (countLetters w) ex)).1 = 0 :=
    Nat.le_zero.mp h
  rw [h0]
  simp

theorem canForm_agree_j0 (w : List Char) (lc : LMap) :
    (Utils.canFormWord w lc 0).canForm = (Worker.canFormWord w lc 0).canForm
    ∧ (Utils.canFormWord w lc 0).wildcardsUsed = (Worker.canFormWord w lc 0).wildcardsUsed
    ∧ ((Utils.canFormWord w lc 0).canForm = true →
        (Utils.canFormWord w lc 0).usedUserLetters
          = (Worker.canFormWord w lc 0).usedUserLetters) := by
  unfold Utils.canFormWord Worker.canFormWord
  refine ⟨rfl, rfl, ?_⟩
  intro h
  simp only [decide_eq_true_eq] at h ⊢
  have h0 : (formLoop lc false (countLetters w)).1 = 0 := Nat.le_zero.mp h
  rw [h0]
  simp

theorem worker_searchStep_eq (lc ex : LMap) (fs : Filters)
    (hpat : ∀ s, fs.boardPattern = some s → ∀ c ∈ s, isWS c = false)
    (word : List Char) (hw : ∀ c ∈ word, danishToUpper c = c)
    (acc : List Candidate × List (List Char)) :
    Worker.searchStep lc 0 ex fs acc word = SearchEngine.searchStep lc 0 ex fs acc word := by
  unfold Worker.searchStep SearchEngine.searchStep
  by_cases hseen : acc.2.contains (jsTrim (jsToUpper word)) = true
  · rw [if_pos hseen, if_pos hseen]
  · rw [if_neg hseen, if_neg hseen]
    simp only []
    have hagree :
        (if ex ≠ [] then Utils.canFormWordWithExtras word lc 0 ex
         else Utils.canFormWord word lc 0).canForm
          = (if ex ≠ [] then Worker.canFormWordWithExtras word lc 0 ex
             else Worker.canFormWord word lc 0).canForm
        ∧ (if ex ≠ [] then Utils.canFormWordWithExtras word lc 0 ex
           else Utils.canFormWord word lc 0).wildcardsUsed
          = (if ex ≠ [] then Worker.canFormWordWithExtras word lc 0 ex
             else Worker.canFormWord word lc 0).wildcardsUsed
        ∧ ((if ex ≠ [] then Utils.canFormWordWithExtras word lc 0 ex
            else Utils.canFormWord word lc 0).canForm = true →
            (if ex ≠ [] then Utils.canFormWordWithExtras word lc 0 ex
             else Utils.canFormWord word lc 0).usedUserLetters
              = (if ex ≠ [] then Worker.canFormWordWithExtras word lc 0 ex
                 else Worker.canFormWord word lc 0).usedUserLetters) := by
      by_cases hex : ex ≠ []
      · simp only [if_pos hex]
        exact canFormWithExtras_agree_j0 word lc ex
      · simp only [if_neg hex]
        exact canForm_agree_j0 word lc
    set frM := if ex ≠ [] then Utils.canFormWordWithExtras word lc 0 ex
      else Utils.canFormWord word lc 0 with hfrM
    set frW := if ex ≠ [] then Worker.canFormWordWithExtras word lc 0 ex
      else Worker.canFormWord word lc 0 with hfrW
    by_cases hcf : frM.canForm = false
    · rw [if_pos (hagree.1 ▸ hcf), if_pos hcf]
    · rw [if_neg (hagree.1 ▸ hcf), if_neg hcf]
      have hcanM : frM.canForm = true := eq_true_of_ne_false hcf
      have hused := hagree.2.2 hcanM
      by_cases huse : frM.usedUserLetters = false
      · rw [if_pos (hused ▸ huse), if_pos huse]
      · rw [if_neg (hused ▸ huse), if_neg huse]
        rw [worker_passesFilters_eq fs hpat word]
        by_cases hpf : SearchEngine.passesFilters word fs = false
        · rw [if_pos hpf, if_pos hpf]
        · rw [if_neg hpf, if_neg hpf]
          rw [worker_scoreWord_eq word hw, hagree.2.1]

theorem foldl_congr_mem {α β : Type} (l : List α) (f g : β → α → β) (b : β)
    (h : ∀ acc x, x ∈ l → f acc x = g acc x) : l.foldl f b = l.foldl g b := by
  induction l generalizing b with
  | nil => rfl
  | cons a l ih =>
    rw [List.foldl_cons, List.foldl_cons, h b a (List.mem_cons_self _ _)]
    exact ih _ fun acc x hx => h acc x (List.mem_cons_of_mem _ hx)

/-! ### Claim C2 -/

/-- C2 counterexample: for the rack `"??"` and the dictionary `{AB}`, the
main-thread search returns AB (the joker rule in utils.js counts consumed
wildcards as "my letters") while the worker search — whose `canFormWord` lacks
that rule — rejects it and returns an empty result list. -/
theorem claim_C2_counterexample :
    Worker.handleSearch ['?', '?'] {} [['A', 'B']] = some []
    ∧ SearchEngine.searchWords ['?', '?'] {} [['A', 'B']] = [⟨['A', 'B'], 0, 2, 2⟩]
    ∧ Worker.handleSearch ['?', '?'] {} [['A', 'B']]
        ≠ some (SearchEngine.searchWords ['?', '?'] {} [['A', 'B']]) := by
  refine ⟨by decide, by decide, by decide⟩

/-- C2 amended: the worker-path and main-thread searches return identical
records in the same order on every search in which the divergent code paths
are not exercised: the rack string is at most 15 characters (the worker's
extra validation), the rack parses to zero wildcards (the joker rule in the
main thread's `canFormWord` has no effect), the board pattern (if any)
contains no whitespace (the main thread collapses whitespace runs before the
pattern-length cap, the worker does not), and the dictionary words are
uppercase (the worker's `scoreWord` skips the uppercase step of its table
lookups). -/
theorem claim_C2_amended (ls : List Char) (fs : Filters) (ws : List (List Char))
    (h1 : ls.length ≤ 15)
    (h2 : (Utils.parseLetters ls).wildcards = 0)
    (h3 : ∀ s, fs.boardPattern = some s → ∀ c ∈ s, isWS c = false)
    (h4 : ∀ w ∈ ws, ∀ c ∈ w, danishToUpper c = c) :
    Worker.handleSearch ls fs ws = some (SearchEngine.searchWords ls fs ws) := by
  simp only [Worker.handleSearch, SearchEngine.searchWords]
  rw [if_neg (by omega)]
  rw [worker_parseLetters_eq, worker_buildExtra_eq fs.boardPattern h3, h2]
  have hf : ws.foldl
      (Worker.searchStep (Utils.parseLetters ls).letterCounts 0
        (Utils.buildExtraLettersFromPattern fs.boardPattern) fs) ([], [])
      = ws.foldl
      (SearchEngine.searchStep (Utils.parseLetters ls).letterCounts 0
        (Utils.buildExtraLettersFromPattern fs.boardPattern) fs) ([], []) :=
    foldl_congr_mem ws _ _ ([], [])
      fun acc x hx => worker_searchStep_eq _ _ fs h3 x (h4 x hx) acc
  rw [hf]

/-- Witness for C2 amended: rack AB, no filters, dictionary {AB}; both paths
return the same single result. -/
theorem claim_C2_witness :
    Worker.handleSearch ['A', 'B'] {} [['A', 'B']]
      = some (SearchEngine.searchWords ['A', 'B'] {} [['A', 'B']]) :=
  claim_C2_amended ['A', 'B'] {} [['A', 'B']] (by decide) (by decide)
    (fun s hs => Option.noConfusion hs) (by decide)
